import Mathlib

/-!
# joystick-gpio: a verification development

Shallow embedding of `joystick/joystick.go`.

* Go strings that hold raw file bytes (`lastStates`, `currentState`) are lists
  of byte values; the one-byte read buffer is a byte value.
* `time.Now()` is abstracted to the number of the tick in which the event is
  built.
* The outcome of one `Read` on a value file is `some b` (one byte read, no
  error) or `none` (an error; the buffer is left as it was).  The outcomes are
  inputs: of the sampling passes (`baselinePass`, `tickPass`), one per pin of
  the list, and of the read step of the running system.
* The calls on the sysfs tree made at construction and at clean-up are the
  functions of a `Host` over a host state that is passed along; the calls of
  the pin controller are recorded in a list of `Call`.  The deferred `Close` of
  the control files and the `time.Sleep` of `exportGPIO` are left out.
* The map `valueFiles` is an association list; the order in which `cleanup`
  ranges over it is left to the host (`rangeMap`, some rearrangement of the
  entries), as Go leaves it open.
* The goroutine `monitor`, the consumer of `Events()` and the caller of `Close`
  are the step system `step`: a `select` takes any ready case, a send blocks
  while the buffer is full, and closing a closed channel or sending on a closed
  channel panics.
-/

namespace Joystick

/-! ## Data model -/

/-- Event is the Go struct `Event`; `Timestamp` holds the tick number. -/
structure Event where
  Timestamp : Nat
  Pin : Int
  Direction : String
  State : String
  deriving DecidableEq, Repr

/-- The locals of `monitor`: the map `lastStates` (a missing key reads as the
empty string) and the shared one-byte `buffer`. -/
structure MonState where
  lastStates : Int → List Nat
  buffer : Nat

/-- The locals of `monitor` when the function is entered (lines 91-92). -/
def MonState.init : MonState := ⟨fun _ => [], 0⟩

/-! ## The sampling passes of `monitor` -/

/-- The table `asciiSpace` of Go's `strings` package. -/
def asciiSpace (c : Nat) : Bool :=
  c == 9 || c == 10 || c == 11 || c == 12 || c == 13 || c == 32

/-- The value of `strings.TrimSpace(string(buffer))` for the one-byte buffer: an
ASCII white-space byte gives the empty string, every other byte (a byte of 0x80
or more is not valid UTF-8 and decodes to the replacement rune, which is no
space) is kept. -/
def trimSpaceByte (b : Nat) : List Nat :=
  if asciiSpace b then [] else [b]

/-- One iteration of the baseline loop (lines 95-99): the result of `Read` is
ignored, so after a failed read the buffer still holds its old content. -/
def baselineStep (pin : Int) (r : Option Nat) (st : MonState) : MonState :=
  let buffer := match r with
    | some b => b
    | none => st.buffer
  ⟨Function.update st.lastStates pin (trimSpaceByte buffer), buffer⟩

/-- The baseline loop (lines 95-99) over the pins, one read outcome per pin. -/
def baselinePass : List Int → List (Option Nat) → MonState → MonState
  | pin :: ps, r :: rs, st => baselinePass ps rs (baselineStep pin r st)
  | _, _, st => st

/-- One iteration of the loop body of a tick (lines 108-129): the new locals
and the event sent on `eventChan`, if any. -/
def sampleStep (pinNames : Int → String) (now : Nat) (pin : Int) (r : Option Nat)
    (st : MonState) : MonState × Option Event :=
  match r with
  | none => (st, none)
  | some b =>
    let currentState := trimSpaceByte b
    if currentState ≠ st.lastStates pin then
      (⟨Function.update st.lastStates pin currentState, b⟩,
        some { Timestamp := now, Pin := pin, Direction := pinNames pin,
               State := if currentState = [48] then "Pressed" else "Released" })
    else
      (⟨st.lastStates, b⟩, none)

/-- One sampling pass (lines 107-130), one read outcome per pin, with every
send completing. -/
def tickPass (pinNames : Int → String) (now : Nat) :
    List Int → List (Option Nat) → MonState → MonState × List Event
  | pin :: ps, r :: rs, st =>
    let s1 := sampleStep pinNames now pin r st
    let s2 := tickPass pinNames now ps rs s1.1
    (s2.1, s1.2.toList ++ s2.2)
  | _, _, st => (st, [])

/-- The passes of the `for` loop (lines 104-134) for a list of ticks, the first
of which has number `now`. -/
def monitorPasses (pinNames : Int → String) (pins : List Int) :
    Nat → List (List (Option Nat)) → MonState → List Event
  | _, [], _ => []
  | now, rs :: rest, st =>
    let s1 := tickPass pinNames now pins rs st
    s1.2 ++ monitorPasses pinNames pins (now + 1) rest s1.1

/-- The events `monitor` sends: the baseline pass, then the ticks numbered from
one. -/
def monitorEvents (pinNames : Int → String) (pins : List Int)
    (base : List (Option Nat)) (ticks : List (List (Option Nat))) : List Event :=
  monitorPasses pinNames pins 1 ticks (baselinePass pins base MonState.init)

/-! ## The pin controller: construction and clean-up -/

/-- The file-system calls the pin controller makes on the sysfs GPIO tree, over
a host state `σ`.  An error result is `some msg`, a nil error is `none`. -/
structure Host (σ : Type) where
  /-- The call `os.Stat` on the directory of the pin: true when it returns a nil error. -/
  statPinDir : σ → Int → Bool
  /-- The call `os.OpenFile` on the export file, write only. -/
  openExport : σ → σ × Option String
  /-- The call `WriteString` of the pin number on the export file. -/
  writeExport : σ → Int → σ × Option String
  /-- The call `os.OpenFile` on the unexport file, write only. -/
  openUnexport : σ → σ × Option String
  /-- The call `WriteString` of the pin number on the unexport file. -/
  writeUnexport : σ → Int → σ × Option String
  /-- The call `os.OpenFile` on the direction file of the pin, write only. -/
  openDirection : σ → Int → σ × Option String
  /-- The call `WriteString` of the direction on the direction file of the pin. -/
  writeDirection : σ → Int → String → σ × Option String
  /-- The call `os.Open` on the value file of the pin: a handle or an error. -/
  openValue : σ → Int → σ × Except String Nat
  /-- The call `Close` on a value-file handle. -/
  closeFile : σ → Nat → σ
  /-- The order in which a `range` over the map `valueFiles` visits the entries:
  Go leaves it open, so it is whatever rearrangement the host picks. -/
  rangeMap : σ → List (Int × Nat) → List (Int × Nat)
  /-- A `range` over a map visits every entry once. -/
  rangeMap_perm : ∀ (w : σ) (m : List (Int × Nat)), (rangeMap w m).Perm m

deriving instance DecidableEq for Except

/-- The calls of the pin controller, as an instrumented controller records
them: the three construction steps with their results, the closing of a value
handle, the release of a pin, and the two markers of the teardown (the return
of `monitor` and the closing of `eventChan`). -/
inductive Call where
  | claim (pin : Int) (err : Option String)
  | configure (pin : Int) (err : Option String)
  | openHandle (pin : Int) (res : Except String Nat)
  | closeHandle (file : Nat)
  | release (pin : Int) (err : Option String)
  | monitorExit
  | closeEvents
  deriving DecidableEq, Repr

/-- The error values `NewJoystick` builds with `fmt.Errorf` (lines 50, 54, 61):
which step failed, for which pin, and the cause. -/
inductive InitError where
  | exportFailed (pin : Int) (cause : String)
  | setDirectionFailed (pin : Int) (cause : String)
  | openValueFailed (pin : Int) (cause : String)
  deriving DecidableEq, Repr

variable {σ : Type}

/-- The function `exportGPIO` (lines 149-162). -/
def exportGPIO (H : Host σ) (w : σ) (pin : Int) : σ × Option String :=
  if H.statPinDir w pin then (w, none)
  else
    match H.openExport w with
    | (w1, some e) => (w1, some e)
    | (w1, none) => H.writeExport w1 pin

/-- The function `unexportGPIO` (lines 164-172). -/
def unexportGPIO (H : Host σ) (w : σ) (pin : Int) : σ × Option String :=
  match H.openUnexport w with
  | (w1, some e) => (w1, some e)
  | (w1, none) => H.writeUnexport w1 pin

/-- The function `setDirection` (lines 174-183). -/
def setDirection (H : Host σ) (w : σ) (pin : Int) (direction : String) :
    σ × Option String :=
  match H.openDirection w pin with
  | (w1, some e) => (w1, some e)
  | (w1, none) => H.writeDirection w1 pin direction

/-- The assignment `joy.valueFiles[pin] = file` on the map kept as an
association list: an entry of the same key is replaced. -/
def mapSet (m : List (Int × Nat)) (pin : Int) (file : Nat) : List (Int × Nat) :=
  m.filter (fun kv => kv.1 ≠ pin) ++ [(pin, file)]

/-- The body of the first loop of `cleanup` (lines 139-141) for the entries in
the order in which the `range` visits them: every handle is closed. -/
def closeAll (H : Host σ) : σ → List (Int × Nat) → σ × List Call
  | w, [] => (w, [])
  | w, kv :: fs =>
    let r := closeAll H (H.closeFile w kv.2) fs
    (r.1, Call.closeHandle kv.2 :: r.2)

/-- The second loop of `cleanup` (lines 142-144): `unexportGPIO` on every
pin, its error dropped. -/
def unexportAll (H : Host σ) : σ → List Int → σ × List Call
  | w, [] => (w, [])
  | w, pin :: ps =>
    let u := unexportGPIO H w pin
    let r := unexportAll H u.1 ps
    (r.1, Call.release pin u.2 :: r.2)

/-- The method `cleanup` (lines 138-145) on the fields `pins` and `valueFiles`:
the `range` over the map `valueFiles` in the order of the host, then the loop
over the slice `pins` in its own order. -/
def cleanup (H : Host σ) (w : σ) (pins : List Int) (valueFiles : List (Int × Nat)) :
    σ × List Call :=
  let c := closeAll H w (H.rangeMap w valueFiles)
  let u := unexportAll H c.1 pins
  (u.1, c.2 ++ u.2)

/-- The loop of `NewJoystick` (lines 46-64) over the pins still to do, with
`pins` the whole list (what `cleanup` walks) and `vf` the map built so far:
the host state, the calls made, and the map or the error returned. -/
def initPins (H : Host σ) (pins : List Int) :
    List Int → σ → List (Int × Nat) → σ × List Call × Except InitError (List (Int × Nat))
  | [], w, vf => (w, [], .ok vf)
  | pin :: rest, w, vf =>
    match exportGPIO H w pin with
    | (w1, some e) =>
      let c := cleanup H w1 pins vf
      (c.1, Call.claim pin (some e) :: c.2, .error (.exportFailed pin e))
    | (w1, none) =>
      match setDirection H w1 pin "in" with
      | (w2, some e) =>
        let c := cleanup H w2 pins vf
        (c.1, Call.claim pin none :: Call.configure pin (some e) :: c.2,
          .error (.setDirectionFailed pin e))
      | (w2, none) =>
        match H.openValue w2 pin with
        | (w3, .error e) =>
          let c := cleanup H w3 pins vf
          (c.1, Call.claim pin none :: Call.configure pin none ::
              Call.openHandle pin (.error e) :: c.2,
            .error (.openValueFailed pin e))
        | (w3, .ok file) =>
          let r := initPins H pins rest w3 (mapSet vf pin file)
          (r.1, Call.claim pin none :: Call.configure pin none ::
              Call.openHandle pin (.ok file) :: r.2.1, r.2.2)

/-! ## The running system: the `monitor` goroutine, the consumer and `Close` -/

/-- Where the `monitor` goroutine stands. -/
inductive MonPc where
  /-- In the baseline loop, about to read the pin at index `i` (lines 96-97). -/
  | baseline (i : Nat)
  /-- Waiting in the `select` (line 105). -/
  | select
  /-- In a sampling pass, about to read the pin at index `i` (lines 108-109). -/
  | sample (i : Nat)
  /-- At the send `j.eventChan <- event` (line 127) for the pin at index `i`. -/
  | send (i : Nat) (event : Event) (currentState : List Nat)
  /-- Returned: the deferred `wg.Done()` has run. -/
  | done
  deriving DecidableEq, Repr

/-- Where the caller stands in `Close` (lines 79-85). -/
inductive ClosePc where
  /-- Not inside `Close` and `Close` never called. -/
  | idle
  /-- After `close(j.stopChan)`, in `j.wg.Wait()`. -/
  | wait
  /-- Before `j.cleanup()`. -/
  | cleanup
  /-- Before `close(j.eventChan)`. -/
  | closeEvents
  /-- A call of `Close` has returned nil. -/
  | returned
  deriving DecidableEq, Repr

/-- The capacity of `eventChan` (line 41). -/
def eventChanCap : Nat := 10

/-- The state of a constructed joystick and of the goroutines around it: the
fields of the Go struct, the `monitor` goroutine, the caller of `Close`, the
host, and the history (calls made, events sent, events received). -/
structure Sys (σ : Type) where
  pins : List Int
  pinNames : Int → String
  valueFiles : List (Int × Nat)
  /-- The events buffered in `eventChan`, oldest first. -/
  eventChan : List Event
  eventClosed : Bool
  /-- Whether `stopChan` is closed. -/
  stopClosed : Bool
  /-- The counter of the wait group. -/
  wg : Nat
  mon : MonPc
  locals : MonState
  /-- The number of ticks `monitor` has taken from the ticker. -/
  tick : Nat
  closer : ClosePc
  /-- A goroutine has panicked (the process is gone). -/
  crashed : Bool
  host : σ
  log : List Call
  /-- Every event sent on `eventChan`, in the order sent. -/
  pushed : List Event
  /-- Every event the consumer received, in the order received. -/
  delivered : List Event
  /-- The consumer has seen the end of the stream. -/
  eos : Bool

/-- The position of `monitor` before the pin at index `i` of the baseline loop,
or at the `select` when the loop is over. -/
def atBaseline (pins : List Int) (i : Nat) : MonPc :=
  if i < pins.length then .baseline i else .select

/-- The position of `monitor` before the pin at index `i` of a sampling pass,
or back at the `select` when the pass is over. -/
def atSample (pins : List Int) (i : Nat) : MonPc :=
  if i < pins.length then .sample i else .select

/-- The function `NewJoystick` (lines 36-71): the host state, the calls made,
and the error or the joystick with its `monitor` goroutine started. -/
def NewJoystick (H : Host σ) (w : σ) (pins : List Int) (pinNames : Int → String) :
    σ × List Call × Except InitError (Sys σ) :=
  let r := initPins H pins pins w []
  (r.1, r.2.1,
    match r.2.2 with
    | .error e => .error e
    | .ok vf => .ok
        { pins := pins, pinNames := pinNames, valueFiles := vf,
          eventChan := [], eventClosed := false, stopClosed := false, wg := 1,
          mon := atBaseline pins 0,
          locals := MonState.init, tick := 0,
          closer := .idle, crashed := false, host := r.1, log := r.2.1,
          pushed := [], delivered := [], eos := false })

/-- The steps of the system. -/
inductive Action where
  /-- The goroutine `monitor` does `Seek` and `Read` on the value file of the
  current pin, with the given outcome. -/
  | read (r : Option Nat)
  /-- The `select` of `monitor` takes the case of the ticker. -/
  | tick
  /-- The `select` of `monitor` takes the case of `stopChan`; the goroutine returns. -/
  | stop
  /-- The send on `eventChan` completes. -/
  | send
  /-- The consumer receives from `Events()`. -/
  | recv
  /-- The caller enters `Close` and runs `close(j.stopChan)`. -/
  | closeCall
  /-- The call `j.wg.Wait()` returns. -/
  | closeWait
  /-- The call `j.cleanup()`. -/
  | closeCleanup
  /-- The statement `close(j.eventChan)` and the return of nil. -/
  | closeEvents
  deriving DecidableEq, Repr

/-- The goroutine `monitor` does `Seek` and `Read` on the value file of its
current pin: in the baseline loop (lines 96-98) or in a sampling pass (lines
108-126). -/
def monRead (s : Sys σ) (r : Option Nat) : Option (Sys σ) :=
  match s.mon with
  | .baseline i =>
    match s.pins[i]? with
    | none => none
    | some pin =>
      some { s with locals := baselineStep pin r s.locals, mon := atBaseline s.pins (i + 1) }
  | .sample i =>
    match s.pins[i]? with
    | none => none
    | some pin =>
      match r with
      | none => some { s with mon := atSample s.pins (i + 1) }
      | some b =>
        let currentState := trimSpaceByte b
        if currentState ≠ s.locals.lastStates pin then
          some { s with
            locals := ⟨s.locals.lastStates, b⟩,
            mon := .send i
              { Timestamp := s.tick, Pin := pin, Direction := s.pinNames pin,
                State := if currentState = [48] then "Pressed" else "Released" }
              currentState }
        else
          some { s with locals := ⟨s.locals.lastStates, b⟩, mon := atSample s.pins (i + 1) }
  | _ => none

/-- The `select` of `monitor` takes the case `<-ticker.C` (line 106). -/
def monTick (s : Sys σ) : Option (Sys σ) :=
  match s.mon with
  | .select => some { s with tick := s.tick + 1, mon := atSample s.pins 0 }
  | _ => none

/-- The `select` of `monitor` takes the case `<-j.stopChan` (lines 131-132), ready
once `stopChan` is closed; the goroutine returns and `wg.Done()` runs. -/
def monStop (s : Sys σ) : Option (Sys σ) :=
  match s.mon with
  | .select =>
    if s.stopClosed then
      some { s with mon := .done, wg := s.wg - 1, log := s.log ++ [Call.monitorExit] }
    else none
  | _ => none

/-- The send `j.eventChan <- event` (line 127) completes when the buffer has
room (a send on a closed channel panics), then `lastStates[pin]` is updated
(line 128). -/
def monSend (s : Sys σ) : Option (Sys σ) :=
  match s.mon with
  | .send i event currentState =>
    if s.eventClosed then some { s with crashed := true }
    else if s.eventChan.length < eventChanCap then
      some { s with
        eventChan := s.eventChan ++ [event],
        pushed := s.pushed ++ [event],
        locals := ⟨Function.update s.locals.lastStates event.Pin currentState, s.locals.buffer⟩,
        mon := atSample s.pins (i + 1) }
    else none
  | _ => none

/-- The consumer receives from `Events()`: the oldest buffered event, or the
end of the stream when the channel is closed and empty. -/
def recv (s : Sys σ) : Option (Sys σ) :=
  match s.eventChan with
  | e :: rest => some { s with eventChan := rest, delivered := s.delivered ++ [e] }
  | [] => if s.eventClosed then some { s with eos := true } else none

/-- The caller enters `Close` (when it is not inside it) and runs
`close(j.stopChan)` (line 80), which panics on a closed channel. -/
def closeCall (s : Sys σ) : Option (Sys σ) :=
  if s.closer = .idle ∨ s.closer = .returned then
    if s.stopClosed then some { s with crashed := true }
    else some { s with stopClosed := true, closer := .wait }
  else none

/-- The call `j.wg.Wait()` (line 81) returns once the counter is zero. -/
def closeWait (s : Sys σ) : Option (Sys σ) :=
  if s.closer = .wait ∧ s.wg = 0 then some { s with closer := .cleanup } else none

/-- The call `j.cleanup()` (line 82). -/
def closeCleanup (H : Host σ) (s : Sys σ) : Option (Sys σ) :=
  if s.closer = .cleanup then
    let c := cleanup H s.host s.pins s.valueFiles
    some { s with host := c.1, log := s.log ++ c.2, closer := .closeEvents }
  else none

/-- The statement `close(j.eventChan)` (line 83), which panics on a closed
channel, and the return of nil (line 84). -/
def closeEvents (s : Sys σ) : Option (Sys σ) :=
  if s.closer = .closeEvents then
    if s.eventClosed then some { s with crashed := true }
    else some { s with eventClosed := true, log := s.log ++ [Call.closeEvents],
                       closer := .returned }
  else none

/-- One step of a system that has not panicked. -/
def stepLive (H : Host σ) (s : Sys σ) : Action → Option (Sys σ)
  | .read r => monRead s r
  | .tick => monTick s
  | .stop => monStop s
  | .send => monSend s
  | .recv => recv s
  | .closeCall => closeCall s
  | .closeWait => closeWait s
  | .closeCleanup => closeCleanup H s
  | .closeEvents => closeEvents s

/-- One step of the system; `none` when the step is not enabled (the goroutine
is elsewhere, or it blocks, or the process has panicked). -/
def step (H : Host σ) (s : Sys σ) (a : Action) : Option (Sys σ) :=
  if s.crashed then none else stepLive H s a

/-- The state after a sequence of steps, `none` when one of them is not enabled. -/
def run (H : Host σ) : Sys σ → List Action → Option (Sys σ)
  | s, [] => some s
  | s, a :: as =>
    match step H s a with
    | none => none
    | some s1 => run H s1 as

/-- The states of the executions of the system from `s0`. -/
def Reachable (H : Host σ) (s0 s : Sys σ) : Prop :=
  ∃ acts, run H s0 acts = some s

/-! ## A simulated host for the concrete runs -/

/-- The pins on which a step of the simulated host fails. -/
structure Faults where
  claim : List Int
  configure : List Int
  openValue : List Int
  release : List Int

/-- A simulated sysfs tree: the state is the list of exported pins; the value
handle of a pin is its number. -/
def simHost (f : Faults) : Host (List Int) where
  statPinDir w pin := decide (pin ∈ w)
  openExport w := (w, none)
  writeExport w pin := if pin ∈ f.claim then (w, some "EINVAL") else (pin :: w, none)
  openUnexport w := (w, none)
  writeUnexport w pin :=
    if pin ∈ w ∧ pin ∉ f.release then (w.erase pin, none) else (w, some "EINVAL")
  openDirection w pin := if pin ∈ w then (w, none) else (w, some "ENOENT")
  writeDirection w pin _ := if pin ∈ f.configure then (w, some "EPERM") else (w, none)
  openValue w pin :=
    if pin ∈ w ∧ pin ∉ f.openValue then (w, .ok pin.toNat) else (w, .error "ENOENT")
  closeFile w _ := w
  rangeMap _ m := m
  rangeMap_perm _ m := List.Perm.refl m

/-- The simulated host on which no step fails. -/
def okHost : Host (List Int) := simHost ⟨[], [], [], []⟩

/-- The edges of a sample sequence, tick by tick: `prev` is the level recorded
before the sample of tick `now`. -/
def edgesFrom (pinNames : Int → String) (p : Int) : Nat → Nat → List Nat → List Event
  | _, _, [] => []
  | now, prev, v :: vs =>
    (if v ≠ prev then
      [{ Timestamp := now, Pin := p, Direction := pinNames p,
         State := if v = 48 then "Pressed" else "Released" }]
     else []) ++ edgesFrom pinNames p (now + 1) v vs


/-! ## The shape of the calls of `NewJoystick` -/

/-- The calls of the iterations of `NewJoystick` in which all three steps
succeed, for the given pins and the handles opened for them. -/
def okCalls : List Int → List Nat → List Call
  | pin :: ps, file :: fs =>
    Call.claim pin none :: Call.configure pin none :: Call.openHandle pin (.ok file) ::
      okCalls ps fs
  | _, _ => []

/-- The pin an error of `NewJoystick` names. -/
def InitError.pin : InitError → Int
  | .exportFailed pin _ => pin
  | .setDirectionFailed pin _ => pin
  | .openValueFailed pin _ => pin

/-- The calls of the iteration of `NewJoystick` that ends with the given error:
the steps before the failing one succeed, the failing one is the last. -/
def failCalls : InitError → List Call
  | .exportFailed pin cause => [Call.claim pin (some cause)]
  | .setDirectionFailed pin cause => [Call.claim pin none, Call.configure pin (some cause)]
  | .openValueFailed pin cause =>
    [Call.claim pin none, Call.configure pin none, Call.openHandle pin (.error cause)]

/-- A claim, configure or open call that failed. -/
def Call.isInitFailure : Call → Bool
  | .claim _ (some _) => true
  | .configure _ (some _) => true
  | .openHandle _ (.error _) => true
  | _ => false

/-- A claim, configure or open call. -/
def Call.isInit : Call → Bool
  | .claim _ _ => true
  | .configure _ _ => true
  | .openHandle _ _ => true
  | _ => false

/-- The pins on which release is invoked in a list of calls. -/
def releasedPins : List Call → List Int
  | [] => []
  | .release pin _ :: cs => pin :: releasedPins cs
  | _ :: cs => releasedPins cs

/-- The pins claimed with success in a list of calls. -/
def claimedPins : List Call → List Int
  | [] => []
  | .claim pin none :: cs => pin :: claimedPins cs
  | _ :: cs => claimedPins cs

/-- The handles closed in a list of calls. -/
def closedHandles : List Call → List Nat
  | [] => []
  | .closeHandle file :: cs => file :: closedHandles cs
  | _ :: cs => closedHandles cs

/-- The handles opened with success in a list of calls. -/
def openedHandles : List Call → List Nat
  | [] => []
  | .openHandle _ (.ok file) :: cs => file :: openedHandles cs
  | _ :: cs => openedHandles cs

/-! ## Invariants of the running system -/

/-- The state `NewJoystick` returns on success, as far as the steps depend on
it: `monitor` is at its start, nothing is closed, sent or received. -/
structure Fresh (s : Sys σ) : Prop where
  mon : s.mon = atBaseline s.pins 0
  wg : s.wg = 1
  closer : s.closer = .idle
  crashed : s.crashed = false
  stopClosed : s.stopClosed = false
  eventClosed : s.eventClosed = false
  eventChan : s.eventChan = []
  pushed : s.pushed = []
  delivered : s.delivered = []

/-- The control invariant: how the wait group, the two channels and the
position of the caller in `Close` go with the position of `monitor`. -/
structure Ctl (s : Sys σ) : Prop where
  wg_done : s.mon = .done → s.wg = 0
  wg_live : s.mon ≠ .done → s.wg = 1
  done_stop : s.mon = .done → s.stopClosed = true
  idle : s.closer = .idle → s.stopClosed = false ∧ s.eventClosed = false ∧ s.crashed = false
  wait : s.closer = .wait → s.stopClosed = true ∧ s.eventClosed = false ∧ s.crashed = false
  cleanup : s.closer = .cleanup →
    s.mon = .done ∧ s.stopClosed = true ∧ s.eventClosed = false ∧ s.crashed = false
  closeEvents : s.closer = .closeEvents →
    s.mon = .done ∧ s.stopClosed = true ∧ s.eventClosed = false ∧ s.crashed = false
  returned : s.closer = .returned →
    s.mon = .done ∧ s.stopClosed = true ∧ s.eventClosed = true

/-- The calls made since construction, by the position of the caller in
`Close`. -/
structure Teardown (H : Host σ) (s0 s : Sys σ) : Prop where
  pins : s.pins = s0.pins
  pinNames : s.pinNames = s0.pinNames
  valueFiles : s.valueFiles = s0.valueFiles
  live : s.mon ≠ .done → s.log = s0.log
  wait : s.closer = .wait → s.mon = .done → s.log = s0.log ++ [Call.monitorExit]
  cleanup : s.closer = .cleanup → s.log = s0.log ++ [Call.monitorExit]
  idleHost : s.closer = .idle → s.host = s0.host
  waitHost : s.closer = .wait → s.host = s0.host
  cleanupHost : s.closer = .cleanup → s.host = s0.host
  closeEvents : s.closer = .closeEvents →
    s.log = s0.log ++ Call.monitorExit ::
        (Joystick.cleanup H s0.host s0.pins s0.valueFiles).2 ∧
    s.host = (Joystick.cleanup H s0.host s0.pins s0.valueFiles).1
  returned : s.closer = .returned →
    s.log = s0.log ++ Call.monitorExit ::
        (Joystick.cleanup H s0.host s0.pins s0.valueFiles).2 ++ [Call.closeEvents] ∧
    s.host = (Joystick.cleanup H s0.host s0.pins s0.valueFiles).1

/-! ## A concrete joystick for the runs below -/

/-- The joystick `NewJoystick` returns on the simulated host without faults for
the pins 17 and 27, no pin exported before. -/
def demoStart : Sys (List Int) :=
  { pins := [17, 27], pinNames := fun _ => "", valueFiles := [(17, 17), (27, 27)],
    eventChan := [], eventClosed := false, stopClosed := false, wg := 1,
    mon := .baseline 0, locals := MonState.init, tick := 0,
    closer := .idle, crashed := false, host := [27, 17],
    log := [.claim 17 none, .configure 17 none, .openHandle 17 (.ok 17),
            .claim 27 none, .configure 27 none, .openHandle 27 (.ok 27)],
    pushed := [], delivered := [], eos := false }

/-- A run with one `Close`: the baseline reads, then `Close` from its call to
its return, `monitor` taking the stop case in between. -/
def demoClose : List Action :=
  [.read (some 49), .read (some 49), .closeCall, .stop, .closeWait, .closeCleanup, .closeEvents]

/-! ## The order of the events -/

/-- The lexicographic order on pairs (tick, index in the pin list). -/
def LexLt (a b : Nat × Nat) : Prop :=
  a.1 < b.1 ∨ (a.1 = b.1 ∧ a.2 < b.2)

/-- The tick of an event and the position of its pin in the pin list. -/
def eventKey (pins : List Int) (e : Event) : Nat × Nat :=
  (e.Timestamp, pins.indexOf e.Pin)

/-- The event `e1` comes before `e2`: it is of an earlier tick, or of the same
tick and of a pin listed earlier. -/
def Before (pins : List Int) (e1 e2 : Event) : Prop :=
  LexLt (eventKey pins e1) (eventKey pins e2)

/-- The tick and pin index `monitor` is working on: everything sent so far is
strictly before it. -/
def cursor (mon : MonPc) (tick : Nat) : Nat × Nat :=
  match mon with
  | .sample i => (tick, i)
  | .send i _ _ => (tick, i)
  | _ => (tick + 1, 0)

/-- The invariant of the event stream: the stream is a FIFO buffer of bounded
length between what was sent and what was received; what was sent is in the
order of `Before` and lies before the cursor of `monitor`. -/
structure Ordered (s : Sys σ) : Prop where
  fifo : s.delivered ++ s.eventChan = s.pushed
  cap : s.eventChan.length ≤ eventChanCap
  sorted : s.pushed.Pairwise (Before s.pins)
  below : ∀ e ∈ s.pushed, LexLt (eventKey s.pins e) (cursor s.mon s.tick)
  sending : ∀ i e c, s.mon = .send i e c → e.Timestamp = s.tick ∧ s.pins[i]? = some e.Pin

/-- A run in which both pins go from "1" to "0" in the first tick and the
consumer receives one event. -/
def demoBoth : List Action :=
  [.read (some 49), .read (some 49), .tick, .read (some 48), .send, .read (some 48), .send,
   .recv]

/-- A run in which nobody receives: pin 17 changes in each of eleven ticks, ten
events fill the stream, `monitor` stands at the send of the eleventh, and
then `Close` is called. -/
def demoFull : List Action :=
  [.read (some 49), .read (some 49)] ++
  (List.range 10).flatMap (fun n =>
    [.tick, .read (some (if n % 2 = 0 then 48 else 49)), .send, .read (some 49)]) ++
  [.tick, .read (some 48), .closeCall]

/-- A run in which `Close` is called and the `select` of `monitor` then takes
the ticker case: pin 17 has changed and its event is sent. -/
def demoLate : List Action :=
  [.read (some 49), .read (some 49), .closeCall, .tick, .read (some 48), .send]

/-- The run `demoBoth` followed by a `Close`: one event is still buffered when
the stream is closed. -/
def demoDrain : List Action :=
  demoBoth ++ [.closeCall, .stop, .closeWait, .closeCleanup, .closeEvents]

/-- The pin index of `monitor` is an index of the pin list. -/
structure PcOk (s : Sys σ) : Prop where
  baseline : ∀ i, s.mon = .baseline i → i < s.pins.length
  sample : ∀ i, s.mon = .sample i → i < s.pins.length
  send : ∀ i e c, s.mon = .send i e c → i < s.pins.length

/-- The part of the state that the steps of `monitor` and of the consumer leave
alone. -/
structure Frame (s s' : Sys σ) : Prop where
  pins : s'.pins = s.pins
  closer : s'.closer = s.closer
  crashed : s'.crashed = s.crashed
  eventClosed : s'.eventClosed = s.eventClosed
  stopClosed : s'.stopClosed = s.stopClosed

/-! ## The schedule in which every event is received as soon as it is sent -/

/-- The steps of one sampling pass with the given read outcomes: each read, and
for a read that detects a change the send and the receive of its event. -/
def passActions (pinNames : Int → String) (now : Nat) :
    List Int → List (Option Nat) → MonState → List Action
  | pin :: ps, r :: rs, st =>
    let s1 := sampleStep pinNames now pin r st
    (Action.read r :: if s1.2.isSome then [Action.send, Action.recv] else []) ++
      passActions pinNames now ps rs s1.1
  | _, _, _ => []

/-- The steps of a list of ticks, the first of which has number `now`. -/
def ticksActions (pinNames : Int → String) (pins : List Int) :
    Nat → List (List (Option Nat)) → MonState → List Action
  | _, [], _ => []
  | now, rs :: rest, st =>
    (Action.tick :: passActions pinNames now pins rs st) ++
      ticksActions pinNames pins (now + 1) rest (tickPass pinNames now pins rs st).1

/-- The steps of `monitor` and of the consumer for the given baseline reads and
ticks. -/
def monitorActions (pinNames : Int → String) (pins : List Int)
    (base : List (Option Nat)) (ticks : List (List (Option Nat))) : List Action :=
  base.map Action.read ++
    ticksActions pinNames pins 1 ticks (baselinePass pins base MonState.init)

/-! ## A simulated host that tracks the open handles -/

/-- A simulated sysfs tree whose state is the list of exported pins and the
list of open value handles (the handle of a pin is its number); no call
fails on an exported pin, and a `range` over the map visits the entries in the
reverse of the order of insertion. -/
def trackHost : Host (List Int × List Nat) where
  statPinDir w pin := decide (pin ∈ w.1)
  openExport w := (w, none)
  writeExport w pin := ((pin :: w.1, w.2), none)
  openUnexport w := (w, none)
  writeUnexport w pin :=
    if pin ∈ w.1 then ((w.1.erase pin, w.2), none) else (w, some "EINVAL")
  openDirection w pin := if pin ∈ w.1 then (w, none) else (w, some "ENOENT")
  writeDirection w _ _ := (w, none)
  openValue w pin :=
    if pin ∈ w.1 then ((w.1, pin.toNat :: w.2), .ok pin.toNat) else (w, .error "ENOENT")
  closeFile w file := (w.1, w.2.erase file)
  rangeMap _ m := m.reverse
  rangeMap_perm _ m := List.reverse_perm m

/-- The joystick `NewJoystick` returns on `trackHost` for the pins 17 and 27,
nothing exported or open before: both pins are exported, both handles open. -/
def trackStart : Sys (List Int × List Nat) :=
  { pins := [17, 27], pinNames := fun _ => "", valueFiles := [(17, 17), (27, 27)],
    eventChan := [], eventClosed := false, stopClosed := false, wg := 1,
    mon := .baseline 0, locals := MonState.init, tick := 0,
    closer := .idle, crashed := false, host := ([27, 17], [27, 17]),
    log := [.claim 17 none, .configure 17 none, .openHandle 17 (.ok 17),
            .claim 27 none, .configure 27 none, .openHandle 27 (.ok 27)],
    pushed := [], delivered := [], eos := false }
/-! ## Lemmas on the sampling passes -/

theorem sampleStep_none (pinNames : Int → String) (now : Nat) (pin : Int) (st : MonState) :
    sampleStep pinNames now pin none st = (st, none) := rfl

theorem sampleStep_same (pinNames : Int → String) (now : Nat) (pin : Int) (b : Nat)
    (st : MonState) (h : trimSpaceByte b = st.lastStates pin) :
    sampleStep pinNames now pin (some b) st = (⟨st.lastStates, b⟩, none) := by
  simp [sampleStep, h]

theorem sampleStep_change (pinNames : Int → String) (now : Nat) (pin : Int) (b : Nat)
    (st : MonState) (h : trimSpaceByte b ≠ st.lastStates pin) :
    sampleStep pinNames now pin (some b) st =
      (⟨Function.update st.lastStates pin (trimSpaceByte b), b⟩,
        some { Timestamp := now, Pin := pin, Direction := pinNames pin,
               State := if trimSpaceByte b = [48] then "Pressed" else "Released" }) := by
  simp [sampleStep, h]

theorem sampleStep_lastStates_of_ne (pinNames : Int → String) (now : Nat) (pin q : Int)
    (r : Option Nat) (st : MonState) (h : q ≠ pin) :
    (sampleStep pinNames now pin r st).1.lastStates q = st.lastStates q := by
  cases r with
  | none => rfl
  | some b =>
    by_cases hc : trimSpaceByte b = st.lastStates pin
    · rw [sampleStep_same _ _ _ _ _ hc]
    · rw [sampleStep_change _ _ _ _ _ hc]
      simp [Function.update, h]

theorem sampleStep_event (pinNames : Int → String) (now : Nat) (pin : Int)
    (r : Option Nat) (st : MonState) (e : Event)
    (h : (sampleStep pinNames now pin r st).2 = some e) :
    e.Pin = pin ∧ e.Timestamp = now := by
  cases r with
  | none => simp [sampleStep_none] at h
  | some b =>
    by_cases hc : trimSpaceByte b = st.lastStates pin
    · rw [sampleStep_same _ _ _ _ _ hc] at h
      simp at h
    · rw [sampleStep_change _ _ _ _ _ hc] at h
      simp only [Option.some.injEq] at h
      subst h
      exact ⟨rfl, rfl⟩

theorem sampleStep_congr (pinNames : Int → String) (now : Nat) (pin : Int)
    (r : Option Nat) (st st' : MonState) (h : st.lastStates pin = st'.lastStates pin) :
    (sampleStep pinNames now pin r st).2 = (sampleStep pinNames now pin r st').2 ∧
    (sampleStep pinNames now pin r st).1.lastStates pin
      = (sampleStep pinNames now pin r st').1.lastStates pin := by
  cases r with
  | none => exact ⟨rfl, h⟩
  | some b =>
    by_cases hc : trimSpaceByte b = st.lastStates pin
    · rw [sampleStep_same _ _ _ _ _ hc, sampleStep_same _ _ _ _ _ (hc.trans h)]
      exact ⟨rfl, h⟩
    · have hc' : trimSpaceByte b ≠ st'.lastStates pin := h ▸ hc
      rw [sampleStep_change _ _ _ _ _ hc, sampleStep_change _ _ _ _ _ hc']
      simp

theorem tickPass_lastStates_of_not_mem (pinNames : Int → String) (now : Nat) (q : Int) :
    ∀ (pins : List Int) (rs : List (Option Nat)) (st : MonState), q ∉ pins →
      (tickPass pinNames now pins rs st).1.lastStates q = st.lastStates q := by
  intro pins
  induction pins with
  | nil => intro rs st _; cases rs <;> rfl
  | cons pin ps ih =>
    intro rs st hq
    cases rs with
    | nil => rfl
    | cons r rs =>
      simp only [tickPass]
      have h1 : q ≠ pin := fun h => hq (h ▸ List.mem_cons_self _ _)
      have h2 : q ∉ ps := fun h => hq (List.mem_cons_of_mem _ h)
      rw [ih rs _ h2, sampleStep_lastStates_of_ne _ _ _ _ _ _ h1]

theorem tickPass_event_mem (pinNames : Int → String) (now : Nat) :
    ∀ (pins : List Int) (rs : List (Option Nat)) (st : MonState) (e : Event),
      e ∈ (tickPass pinNames now pins rs st).2 → e.Pin ∈ pins ∧ e.Timestamp = now := by
  intro pins
  induction pins with
  | nil => intro rs st e h; cases rs <;> simp [tickPass] at h
  | cons pin ps ih =>
    intro rs st e h
    cases rs with
    | nil => simp [tickPass] at h
    | cons r rs =>
      simp only [tickPass, List.mem_append, Option.mem_toList] at h
      rcases h with h | h
      · have := sampleStep_event _ _ _ _ _ _ h
        exact ⟨this.1 ▸ List.mem_cons_self _ _, this.2⟩
      · have := ih rs _ e h
        exact ⟨List.mem_cons_of_mem _ this.1, this.2⟩

/-- In a pass over distinct pins, what happens to the pin at index `k` is what
its own iteration does on the locals the pass started with. -/
theorem tickPass_at (pinNames : Int → String) (now : Nat) :
    ∀ (pins : List Int) (rs : List (Option Nat)) (st : MonState) (k : Nat) (p : Int)
      (r : Option Nat),
      pins.Nodup → pins[k]? = some p → rs[k]? = some r →
      (tickPass pinNames now pins rs st).1.lastStates p
          = (sampleStep pinNames now p r st).1.lastStates p ∧
      (tickPass pinNames now pins rs st).2.filter (fun e => decide (e.Pin = p))
          = (sampleStep pinNames now p r st).2.toList := by
  intro pins
  induction pins with
  | nil => intro rs st k p r _ hk; simp at hk
  | cons pin ps ih =>
    intro rs st k p r hnd hk hr
    cases rs with
    | nil => simp at hr
    | cons r0 rs =>
      have hnd' := List.nodup_cons.mp hnd
      cases k with
      | zero =>
        simp at hk hr
        subst hk; subst hr
        simp only [tickPass]
        refine ⟨tickPass_lastStates_of_not_mem _ _ _ _ _ _ hnd'.1, ?_⟩
        rw [List.filter_append]
        have h2 : (tickPass pinNames now ps rs (sampleStep pinNames now pin r0 st).1).2.filter
            (fun e => decide (e.Pin = pin)) = [] := by
          rw [List.filter_eq_nil_iff]
          intro e he
          have := (tickPass_event_mem _ _ _ _ _ e he).1
          simp only [decide_eq_true_eq]
          intro hp
          exact hnd'.1 (hp ▸ this)
        rw [h2, List.append_nil, List.filter_eq_self]
        intro e he
        simp only [Option.mem_toList, Option.mem_def] at he
        simp [(sampleStep_event _ _ _ _ _ _ he).1]
      | succ k =>
        simp at hk hr
        have hp : p ∈ ps := List.mem_iff_getElem?.mpr ⟨k, hk⟩
        have hne : p ≠ pin := fun h => hnd'.1 (h ▸ hp)
        simp only [tickPass]
        have hst := sampleStep_lastStates_of_ne pinNames now pin p r0 st hne
        have hc := sampleStep_congr pinNames now p r _ _ hst
        have := ih rs (sampleStep pinNames now pin r0 st).1 k p r hnd'.2 hk hr
        refine ⟨this.1.trans hc.2, ?_⟩
        rw [List.filter_append, this.2, hc.1]
        have h1 : (sampleStep pinNames now pin r0 st).2.toList.filter
            (fun e => decide (e.Pin = p)) = [] := by
          rw [List.filter_eq_nil_iff]
          intro e he
          simp only [Option.mem_toList, Option.mem_def] at he
          simp only [decide_eq_true_eq]
          rw [(sampleStep_event _ _ _ _ _ _ he).1]
          exact fun h => hne h.symm
        rw [h1, List.nil_append]

theorem baselinePass_lastStates_of_not_mem (q : Int) :
    ∀ (pins : List Int) (rs : List (Option Nat)) (st : MonState), q ∉ pins →
      (baselinePass pins rs st).lastStates q = st.lastStates q := by
  intro pins
  induction pins with
  | nil => intro rs st _; cases rs <;> rfl
  | cons pin ps ih =>
    intro rs st hq
    cases rs with
    | nil => rfl
    | cons r rs =>
      simp only [baselinePass]
      have h1 : q ≠ pin := fun h => hq (h ▸ List.mem_cons_self _ _)
      have h2 : q ∉ ps := fun h => hq (List.mem_cons_of_mem _ h)
      rw [ih rs _ h2]
      simp [baselineStep, Function.update, h1]

/-- The baseline of a pin whose own read succeeds is the byte read, trimmed. -/
theorem baselinePass_at_some :
    ∀ (pins : List Int) (rs : List (Option Nat)) (st : MonState) (k : Nat) (p : Int) (b : Nat),
      pins.Nodup → pins[k]? = some p → rs[k]? = some (some b) →
      (baselinePass pins rs st).lastStates p = trimSpaceByte b := by
  intro pins
  induction pins with
  | nil => intro rs st k p b _ hk; simp at hk
  | cons pin ps ih =>
    intro rs st k p b hnd hk hr
    cases rs with
    | nil => simp at hr
    | cons r0 rs =>
      have hnd' := List.nodup_cons.mp hnd
      cases k with
      | zero =>
        simp at hk hr
        subst hk; subst hr
        simp only [baselinePass]
        rw [baselinePass_lastStates_of_not_mem _ _ _ _ hnd'.1]
        simp [baselineStep]
      | succ k =>
        simp at hk hr
        simp only [baselinePass]
        exact ih rs _ k p b hnd'.2 hk hr

theorem trimSpaceByte_bit (v : Nat) (h : v = 48 ∨ v = 49) : trimSpaceByte v = [v] := by
  rcases h with h | h <;> subst h <;> rfl

theorem monitorPasses_at (pinNames : Int → String) (pins : List Int) (k : Nat) (p : Int)
    (hnd : pins.Nodup) (hk : pins[k]? = some p) :
    ∀ (ticks : List (List (Option Nat))) (vs : List Nat) (now prev : Nat) (st : MonState),
      st.lastStates p = [prev] → (∀ v ∈ vs, v = 48 ∨ v = 49) →
      List.Forall₂ (fun rs v => rs[k]? = some (some v)) ticks vs →
      (monitorPasses pinNames pins now ticks st).filter (fun e => decide (e.Pin = p))
        = edgesFrom pinNames p now prev vs := by
  intro ticks
  induction ticks with
  | nil =>
    intro vs now prev st _ _ h
    cases h
    rfl
  | cons rs ticks ih =>
    intro vs now prev st hst hv h
    cases h with
    | cons hr hrest =>
      rename_i v vs'
      have hv0 := hv v (List.mem_cons_self _ _)
      have hv' : ∀ u ∈ vs', u = 48 ∨ u = 49 := fun u hu => hv u (List.mem_cons_of_mem _ hu)
      have hat := tickPass_at pinNames now pins rs st k p (some v) hnd hk hr
      have htr := trimSpaceByte_bit v hv0
      simp only [monitorPasses, edgesFrom]
      rw [List.filter_append, hat.2]
      by_cases hc : v = prev
      · have hs : trimSpaceByte v = st.lastStates p := by rw [htr, hst, hc]
        rw [sampleStep_same _ _ _ _ _ hs] at hat
        have hl : (tickPass pinNames now pins rs st).1.lastStates p = [v] := by
          rw [hat.1]; simp [hst, hc]
        rw [ih vs' (now + 1) v _ hl hv' hrest, sampleStep_same _ _ _ _ _ hs]
        simp [hc]
      · have hs : trimSpaceByte v ≠ st.lastStates p := by
          rw [htr, hst]; simpa using hc
        rw [sampleStep_change _ _ _ _ _ hs] at hat
        have hl : (tickPass pinNames now pins rs st).1.lastStates p = [v] := by
          rw [hat.1]; simp [htr]
        rw [ih vs' (now + 1) v _ hl hv' hrest, sampleStep_change _ _ _ _ _ hs]
        simp [hc, htr]

theorem edgesFrom_eq_filterMap (pinNames : Int → String) (p : Int) :
    ∀ (vs : List Nat) (now prev : Nat),
      edgesFrom pinNames p now prev vs =
        (List.range vs.length).filterMap (fun i =>
          if vs.getD i 0 ≠ (if i = 0 then prev else vs.getD (i - 1) 0) then
            some { Timestamp := now + i, Pin := p, Direction := pinNames p,
                   State := if vs.getD i 0 = 48 then "Pressed" else "Released" }
          else none) := by
  intro vs
  induction vs with
  | nil => intro now prev; rfl
  | cons v vs ih =>
    intro now prev
    simp only [edgesFrom, List.length_cons]
    rw [List.range_succ_eq_map, List.filterMap_cons, List.filterMap_map, ih (now + 1) v]
    have hfun : (fun i =>
          if vs.getD i 0 ≠ (if i = 0 then v else vs.getD (i - 1) 0) then
            some ({ Timestamp := now + 1 + i, Pin := p, Direction := pinNames p,
                     State := if vs.getD i 0 = 48 then "Pressed" else "Released" } : Event)
          else none) =
        ((fun i =>
          if (v :: vs).getD i 0 ≠ (if i = 0 then prev else (v :: vs).getD (i - 1) 0) then
            some ({ Timestamp := now + i, Pin := p, Direction := pinNames p,
                     State := if (v :: vs).getD i 0 = 48 then "Pressed" else "Released" } : Event)
          else none) ∘ Nat.succ) := by
      funext i
      cases i with
      | zero => simp [Nat.add_comm]
      | succ j => simp [Nat.add_comm, Nat.add_left_comm]
    rw [hfun]
    by_cases hc : v = prev
    · simp [hc]
    · simp [hc]

/-- C1. Edge detection over a sample sequence: in a run of `monitor` over
distinct pins in which the pin `p` (at index `k`) is read successfully at the
baseline and in every tick, with samples `vs` (each the byte of "0" or "1", the
baseline read being the first sample), the events sent for `p` are exactly
one event at each tick `i + 1` (for an index `0 < i`) whose sample differs from
the one before it, `Pressed` when the sample is "0" and `Released` when it is
"1", and no other. -/
theorem monitor_edge_detection (pinNames : Int → String) (pins : List Int) (k : Nat) (p : Int)
    (base : List (Option Nat)) (ticks : List (List (Option Nat))) (vs : List Nat)
    (hnd : pins.Nodup) (hk : pins[k]? = some p)
    (hv : ∀ v ∈ vs, v = 48 ∨ v = 49)
    (hbase : base[k]? = some vs.head?)
    (hticks : List.Forall₂ (fun rs v => rs[k]? = some (some v)) ticks vs) :
    (monitorEvents pinNames pins base ticks).filter (fun e => decide (e.Pin = p)) =
      (List.range vs.length).filterMap (fun i =>
        if 0 < i ∧ vs.getD i 0 ≠ vs.getD (i - 1) 0 then
          some { Timestamp := i + 1, Pin := p, Direction := pinNames p,
                 State := if vs.getD i 0 = 48 then "Pressed" else "Released" }
        else none) := by
  cases vs with
  | nil =>
    cases hticks
    rfl
  | cons v1 rest =>
    have hb : (baselinePass pins base MonState.init).lastStates p = [v1] := by
      rw [baselinePass_at_some pins base _ k p v1 hnd hk (by simpa using hbase)]
      exact trimSpaceByte_bit v1 (hv v1 (List.mem_cons_self _ _))
    unfold monitorEvents
    rw [monitorPasses_at pinNames pins k p hnd hk ticks (v1 :: rest) 1 v1 _ hb hv hticks,
      edgesFrom_eq_filterMap]
    apply List.filterMap_congr
    intro i _
    cases i with
    | zero => simp
    | succ j => simp [Nat.add_comm]

/-- The sequence 1,1,0,0,1 on pin 96 gives exactly `Pressed` at tick 3 and
`Released` at tick 5. -/
theorem monitor_edge_detection_witness :
    (monitorEvents (fun _ => "Up") [96] [some 49]
        [[some 49], [some 49], [some 48], [some 48], [some 49]]).filter
        (fun e => decide (e.Pin = 96)) =
      [⟨3, 96, "Up", "Pressed"⟩, ⟨5, 96, "Up", "Released"⟩] :=
  (monitor_edge_detection (fun _ => "Up") [96] 0 96 [some 49]
    [[some 49], [some 49], [some 48], [some 48], [some 49]] [49, 49, 48, 48, 49]
    (by decide) (by decide) (by decide) (by decide)
    (by repeat (first | exact List.Forall₂.nil | apply List.Forall₂.cons (by decide)))).trans
    (by decide)

theorem sampleStep_congr_lastStates (pinNames : Int → String) (now : Nat) (pin : Int)
    (r : Option Nat) (st st' : MonState) (h : st.lastStates = st'.lastStates) :
    (sampleStep pinNames now pin r st).2 = (sampleStep pinNames now pin r st').2 ∧
    (sampleStep pinNames now pin r st).1.lastStates
      = (sampleStep pinNames now pin r st').1.lastStates := by
  cases r with
  | none => exact ⟨rfl, h⟩
  | some b =>
    by_cases hc : trimSpaceByte b = st.lastStates pin
    · rw [sampleStep_same _ _ _ _ _ hc, sampleStep_same _ _ _ _ _ (h ▸ hc)]
      exact ⟨rfl, h⟩
    · have hc' : trimSpaceByte b ≠ st'.lastStates pin := h ▸ hc
      rw [sampleStep_change _ _ _ _ _ hc, sampleStep_change _ _ _ _ _ hc']
      simp [h]

/-- Two passes whose read outcomes differ only where the first has an error and
the second an unchanged value send the same events and record the same levels. -/
theorem tickPass_swallow (pinNames : Int → String) (now : Nat) :
    ∀ (pins : List Int) (rs rs' : List (Option Nat)) (st st' : MonState),
      pins.Nodup → st.lastStates = st'.lastStates →
      (∀ (i : Nat) (p : Int), pins[i]? = some p →
        rs[i]? = rs'[i]? ∨
        (rs[i]? = some none ∧ ∃ b, rs'[i]? = some (some b) ∧ trimSpaceByte b = st.lastStates p)) →
      (tickPass pinNames now pins rs st).2 = (tickPass pinNames now pins rs' st').2 ∧
      (tickPass pinNames now pins rs st).1.lastStates
        = (tickPass pinNames now pins rs' st').1.lastStates := by
  intro pins
  induction pins with
  | nil => intro rs rs' st st' _ h _; cases rs <;> cases rs' <;> exact ⟨rfl, h⟩
  | cons pin ps ih =>
    intro rs rs' st st' hnd hst hrel
    have hnd' := List.nodup_cons.mp hnd
    have h0 := hrel 0 pin (by simp)
    cases rs with
    | nil =>
      cases rs' with
      | nil => exact ⟨rfl, hst⟩
      | cons r' rs' => simp at h0
    | cons r rs =>
      cases rs' with
      | nil => simp at h0
      | cons r' rs' =>
        simp only [tickPass]
        have hfirst : (sampleStep pinNames now pin r st).2 = (sampleStep pinNames now pin r' st').2 ∧
            (sampleStep pinNames now pin r st).1.lastStates
              = (sampleStep pinNames now pin r' st').1.lastStates := by
          rcases h0 with h0 | ⟨h0, b, hb, htr⟩
          · simp at h0
            subst h0
            exact sampleStep_congr_lastStates _ _ _ _ _ _ hst
          · simp at h0 hb
            subst h0; subst hb
            rw [sampleStep_none, sampleStep_same _ _ _ _ _ (hst ▸ htr)]
            exact ⟨rfl, hst⟩
        have hrel' : ∀ (i : Nat) (p : Int), ps[i]? = some p →
            rs[i]? = rs'[i]? ∨
            (rs[i]? = some none ∧ ∃ b, rs'[i]? = some (some b) ∧
              trimSpaceByte b = (sampleStep pinNames now pin r st).1.lastStates p) := by
          intro i p hp
          have hmem : p ∈ ps := List.mem_iff_getElem?.mpr ⟨i, hp⟩
          have hne : p ≠ pin := fun h => hnd'.1 (h ▸ hmem)
          rw [sampleStep_lastStates_of_ne _ _ _ _ _ _ hne]
          simpa using hrel (i + 1) p (by simpa using hp)
        have := ih rs rs' _ _ hnd'.2 hfirst.2 hrel'
        exact ⟨by rw [hfirst.1, this.1], this.2⟩


/-! ## C5: a read error in a tick -/

/-- C5. A read error in a tick is swallowed: in one sampling pass over distinct
pins, every pin whose read fails keeps its recorded level and gets no event;
the events sent and the levels recorded in the pass are the same as in the
pass in which each failed read is replaced by a successful read of an
unchanged value; and the step of `monitor` on a failed read only moves on to
the next pin (or back to the `select`), it neither returns nor panics. -/
theorem read_error_swallowed (H : Host σ) (pinNames : Int → String) (now : Nat)
    (pins : List Int) (rs rs' : List (Option Nat)) (st : MonState)
    (hnd : pins.Nodup)
    (hrel : ∀ (i : Nat) (p : Int), pins[i]? = some p →
      rs[i]? = rs'[i]? ∨
      (rs[i]? = some none ∧ ∃ b, rs'[i]? = some (some b) ∧ trimSpaceByte b = st.lastStates p)) :
    (∀ (i : Nat) (p : Int), pins[i]? = some p → rs[i]? = some none →
      (tickPass pinNames now pins rs st).1.lastStates p = st.lastStates p ∧
      ∀ e ∈ (tickPass pinNames now pins rs st).2, e.Pin ≠ p) ∧
    (tickPass pinNames now pins rs st).2 = (tickPass pinNames now pins rs' st).2 ∧
    (tickPass pinNames now pins rs st).1.lastStates
      = (tickPass pinNames now pins rs' st).1.lastStates ∧
    (∀ (s : Sys σ) (i : Nat) (pin : Int), s.crashed = false → s.mon = .sample i →
      s.pins[i]? = some pin →
      step H s (.read none) = some { s with mon := atSample s.pins (i + 1) }) := by
  refine ⟨?_, (tickPass_swallow pinNames now pins rs rs' st st hnd rfl hrel).1,
    (tickPass_swallow pinNames now pins rs rs' st st hnd rfl hrel).2, ?_⟩
  · intro i p hp hr
    have hat := tickPass_at pinNames now pins rs st i p none hnd hp hr
    rw [sampleStep_none] at hat
    refine ⟨hat.1, ?_⟩
    intro e he hpin
    have hmem : e ∈ (tickPass pinNames now pins rs st).2.filter (fun e => decide (e.Pin = p)) :=
      List.mem_filter.mpr ⟨he, by simpa using hpin⟩
    rw [hat.2] at hmem
    simp at hmem
  · intro s i pin hc hm hp
    simp [step, stepLive, monRead, hc, hm, hp]

/-- A pass over pins 17 and 27 in which the read of pin 17 fails: pin 17 keeps
its level, and pin 27 gives the event it gives when pin 17 reads an unchanged
"1". -/
theorem read_error_swallowed_witness :
    (tickPass (fun _ => "") 1 [17, 27] [none, some 48] ⟨fun _ => [49], 0⟩).2
      = (tickPass (fun _ => "") 1 [17, 27] [some 49, some 48] ⟨fun _ => [49], 0⟩).2 ∧
    (tickPass (fun _ => "") 1 [17, 27] [none, some 48] ⟨fun _ => [49], 0⟩).2
      = [⟨1, 27, "", "Pressed"⟩] :=
  ⟨(read_error_swallowed okHost (fun _ => "") 1 [17, 27] [none, some 48] [some 49, some 48]
      ⟨fun _ => [49], 0⟩ (by decide)
      (by
        intro i p hp
        match i with
        | 0 => right; exact ⟨rfl, 49, rfl, rfl⟩
        | 1 => left; rfl
        | (n + 2) => simp at hp)).2.1,
    by decide⟩

/-! ## C10: the baseline pass and its shared buffer -/

/-- C10 (evaluation of the code). With pins 17 and 27 and a failed baseline read
of pin 27 in both runs, the baseline recorded for pin 27 is the byte read for
pin 17 (still in the shared buffer): "0" in one run, "1" in the other; and with
the same first tick (both pins read "1") the first run sends `Released` for pin
27 while the second sends nothing for it. -/
theorem baseline_reads_stale_buffer :
    (baselinePass [17, 27] [some 48, none] MonState.init).lastStates 27 = [48] ∧
    (baselinePass [17, 27] [some 49, none] MonState.init).lastStates 27 = [49] ∧
    (monitorEvents (fun _ => "") [17, 27] [some 48, none] [[some 49, some 49]]).filter
        (fun e => decide (e.Pin = 27)) = [⟨1, 27, "", "Released"⟩] ∧
    (monitorEvents (fun _ => "") [17, 27] [some 49, none] [[some 49, some 49]]).filter
        (fun e => decide (e.Pin = 27)) = [] := by
  decide

/-! ## C4: construction stops at the first failing pin -/

theorem closeAll_calls (H : Host σ) :
    ∀ (vf : List (Int × Nat)) (w : σ), (closeAll H w vf).2 = vf.map (fun kv => Call.closeHandle kv.2) := by
  intro vf
  induction vf with
  | nil => intro w; rfl
  | cons kv fs ih => intro w; simp [closeAll, ih]

theorem unexportAll_calls (H : Host σ) :
    ∀ (pins : List Int) (w : σ), ∃ errs : List (Option String), errs.length = pins.length ∧
      (unexportAll H w pins).2 = (pins.zip errs).map (fun pe => Call.release pe.1 pe.2) := by
  intro pins
  induction pins with
  | nil => intro w; exact ⟨[], rfl, rfl⟩
  | cons pin ps ih =>
    intro w
    have hu : ∃ u, u = unexportGPIO H w pin := ⟨_, rfl⟩
    obtain ⟨u, hu⟩ := hu
    obtain ⟨errs, hlen, h⟩ := ih u.1
    exact ⟨u.2 :: errs, by simp [hlen], by simp [unexportAll, ← hu, h]⟩

theorem cleanup_calls (H : Host σ) (w : σ) (pins : List Int) (vf : List (Int × Nat)) :
    ∃ errs : List (Option String), errs.length = pins.length ∧
      (cleanup H w pins vf).2 =
        (H.rangeMap w vf).map (fun kv => Call.closeHandle kv.2) ++
          (pins.zip errs).map (fun pe => Call.release pe.1 pe.2) := by
  obtain ⟨errs, hlen, h⟩ := unexportAll_calls H pins (closeAll H w (H.rangeMap w vf)).1
  exact ⟨errs, hlen, by simp [cleanup, closeAll_calls, h]⟩

theorem cleanup_not_init (H : Host σ) (w : σ) (pins : List Int) (vf : List (Int × Nat)) :
    ∀ c ∈ (cleanup H w pins vf).2, c.isInit = false := by
  obtain ⟨errs, _, h⟩ := cleanup_calls H w pins vf
  rw [h]
  intro c hc
  simp only [List.mem_append, List.mem_map] at hc
  rcases hc with ⟨kv, _, rfl⟩ | ⟨pe, _, rfl⟩ <;> rfl

/-- The calls of the loop of `NewJoystick`: successful iterations, then either
nothing more (success) or the failing iteration followed by `cleanup`. -/
theorem initPins_shape (H : Host σ) (all : List Int) :
    ∀ (rest : List Int) (w : σ) (vf : List (Int × Nat)),
      match (initPins H all rest w vf).2.2 with
      | .ok _ => ∃ files : List Nat, files.length = rest.length ∧
          (initPins H all rest w vf).2.1 = okCalls rest files
      | .error e => ∃ (k : Nat) (files : List Nat) (w' : σ) (vf' : List (Int × Nat)),
          rest[k]? = some e.pin ∧ files.length = k ∧
          (initPins H all rest w vf).2.1 =
            okCalls (rest.take k) files ++ failCalls e ++ (cleanup H w' all vf').2 := by
  intro rest
  induction rest with
  | nil => intro w vf; exact ⟨[], rfl, rfl⟩
  | cons pin rest ih =>
    intro w vf
    rcases h1 : exportGPIO H w pin with ⟨w1, e1⟩
    cases e1 with
    | some e =>
      simp only [initPins, h1]
      exact ⟨0, [], w1, vf, by simp [InitError.pin], rfl, rfl⟩
    | none =>
      rcases h2 : setDirection H w1 pin "in" with ⟨w2, e2⟩
      cases e2 with
      | some e =>
        simp only [initPins, h1, h2]
        exact ⟨0, [], w2, vf, by simp [InitError.pin], rfl, rfl⟩
      | none =>
        rcases h3 : H.openValue w2 pin with ⟨w3, e3⟩
        cases e3 with
        | error e =>
          simp only [initPins, h1, h2, h3]
          exact ⟨0, [], w3, vf, by simp [InitError.pin], rfl, rfl⟩
        | ok file =>
          have := ih w3 (mapSet vf pin file)
          simp only [initPins, h1, h2, h3]
          cases hr : (initPins H all rest w3 (mapSet vf pin file)).2.2 with
          | ok vf' =>
            rw [hr] at this
            obtain ⟨files, hlen, hcalls⟩ := this
            exact ⟨file :: files, by simp [hlen], by simp [okCalls, hcalls]⟩
          | error err =>
            rw [hr] at this
            obtain ⟨k, files, w', vf', hk, hlen, hcalls⟩ := this
            exact ⟨k + 1, file :: files, w', vf', by simpa using hk, by simp [hlen],
              by simp [okCalls, hcalls]⟩

theorem okCalls_not_failure : ∀ (pins : List Int) (files : List Nat),
    ∀ c ∈ okCalls pins files, c.isInitFailure = false := by
  intro pins
  induction pins with
  | nil => intro files c hc; simp [okCalls] at hc
  | cons pin ps ih =>
    intro files c hc
    cases files with
    | nil => simp [okCalls] at hc
    | cons f fs =>
      simp only [okCalls, List.mem_cons] at hc
      rcases hc with rfl | rfl | rfl | hc
      · rfl
      · rfl
      · rfl
      · exact ih fs c hc

theorem failCalls_has_failure (e : InitError) : ∃ c ∈ failCalls e, c.isInitFailure = true := by
  cases e with
  | exportFailed pin cause => exact ⟨_, List.mem_cons_self _ _, rfl⟩
  | setDirectionFailed pin cause =>
    exact ⟨Call.configure pin (some cause), by simp [failCalls], rfl⟩
  | openValueFailed pin cause =>
    exact ⟨Call.openHandle pin (.error cause), by simp [failCalls], rfl⟩

/-- C4. Construction fails at the first failing pin: `NewJoystick` returns an
error exactly when one of the claim, configure or open calls it made failed.
When it returns the error `e` (and so no joystick, whose `monitor` goroutine
is started only on success), the calls it made are: the three successful steps
of every pin before index `k`, in list order; then the steps of the pin at
index `k`, the pin `e` names, up to the failing step `e` names; and after that
no claim, configure or open call at all.  When it succeeds, the calls are the
three successful steps of every pin, and `monitor` is started. -/
theorem NewJoystick_fails_at_first_failing_pin (H : Host σ) (w : σ) (pins : List Int)
    (pinNames : Int → String) :
    ((∃ e, (NewJoystick H w pins pinNames).2.2 = .error e) ↔
      ∃ c ∈ (NewJoystick H w pins pinNames).2.1, c.isInitFailure = true) ∧
    (∀ e, (NewJoystick H w pins pinNames).2.2 = .error e →
      ∃ (k : Nat) (files : List Nat) (rest : List Call),
        pins[k]? = some e.pin ∧ files.length = k ∧
        (NewJoystick H w pins pinNames).2.1 = okCalls (pins.take k) files ++ failCalls e ++ rest ∧
        ∀ c ∈ rest, c.isInit = false) ∧
    (∀ s, (NewJoystick H w pins pinNames).2.2 = .ok s →
      ∃ files : List Nat, files.length = pins.length ∧
        (NewJoystick H w pins pinNames).2.1 = okCalls pins files ∧
        s.log = okCalls pins files ∧ s.pins = pins ∧
        s.mon = atBaseline pins 0 ∧ s.wg = 1 ∧ s.closer = .idle ∧ s.crashed = false) := by
  have hshape := initPins_shape H pins pins w []
  cases hr : (initPins H pins pins w []).2.2 with
  | error e =>
    rw [hr] at hshape
    obtain ⟨k, files, w', vf', hk, hlen, hcalls⟩ := hshape
    have hres : (NewJoystick H w pins pinNames).2.2 = .error e := by
      simp [NewJoystick, hr]
    have hlog : (NewJoystick H w pins pinNames).2.1 =
        okCalls (pins.take k) files ++ failCalls e ++ (cleanup H w' pins vf').2 := hcalls
    refine ⟨⟨fun _ => ?_, fun _ => ⟨e, hres⟩⟩, ?_, ?_⟩
    · obtain ⟨c, hc, hf⟩ := failCalls_has_failure e
      exact ⟨c, by rw [hlog]; simp [hc], hf⟩
    · intro e' he'
      rw [hres] at he'
      cases he'
      exact ⟨k, files, _, hk, hlen, hlog, cleanup_not_init H w' pins vf'⟩
    · intro s hs
      rw [hres] at hs
      cases hs
  | ok vf =>
    rw [hr] at hshape
    obtain ⟨files, hlen, hcalls⟩ := hshape
    have hlog : (NewJoystick H w pins pinNames).2.1 = okCalls pins files := hcalls
    refine ⟨⟨fun ⟨e, he⟩ => ?_, fun ⟨c, hc, hf⟩ => ?_⟩, ?_, ?_⟩
    · simp [NewJoystick, hr] at he
    · rw [hlog] at hc
      rw [okCalls_not_failure pins files c hc] at hf
      cases hf
    · intro e he
      simp [NewJoystick, hr] at he
    · intro s hs
      simp only [NewJoystick, hr] at hs
      cases hs
      exact ⟨files, hlen, hlog, hcalls, rfl, by simp [atBaseline], rfl, rfl, rfl⟩

/-! ## The invariants of the running system -/

theorem atBaseline_ne_done (pins : List Int) (i : Nat) : atBaseline pins i ≠ .done := by
  unfold atBaseline; split <;> simp

theorem atSample_ne_done (pins : List Int) (i : Nat) : atSample pins i ≠ .done := by
  unfold atSample; split <;> simp

theorem fresh_ctl {s : Sys σ} (h : Fresh s) : Ctl s := by
  have hm : s.mon ≠ .done := h.mon ▸ atBaseline_ne_done _ _
  constructor <;> simp [h.wg, h.closer, h.crashed, h.stopClosed, h.eventClosed, hm]

theorem step_some {H : Host σ} {s s' : Sys σ} {a : Action} (hs : step H s a = some s') :
    s.crashed = false := by
  unfold step at hs
  cases hc : s.crashed with
  | false => rfl
  | true => simp [hc] at hs

theorem ctl_of_monRead {s s' : Sys σ} {r : Option Nat} (h : Ctl s)
    (hs : monRead s r = some s') : Ctl s' := by
  obtain ⟨h1, h2, h3, h4, h5, h6, h7, h8⟩ := h
  have hb := atBaseline_ne_done s.pins
  have hsm := atSample_ne_done s.pins
  unfold Joystick.monRead at hs
  dsimp only at hs
  (repeat' split at hs) <;>
    simp only [Option.some.injEq, reduceCtorEq] at hs <;> subst hs <;>
    constructor <;> simp_all

theorem ctl_of_monTick {s s' : Sys σ} (h : Ctl s) (hs : monTick s = some s') : Ctl s' := by
  obtain ⟨h1, h2, h3, h4, h5, h6, h7, h8⟩ := h
  have hsm := atSample_ne_done s.pins
  unfold Joystick.monTick at hs
  (repeat' split at hs) <;>
    simp only [Option.some.injEq, reduceCtorEq] at hs <;> subst hs <;>
    constructor <;> simp_all

theorem ctl_of_monStop {s s' : Sys σ} (h : Ctl s) (hs : monStop s = some s') : Ctl s' := by
  obtain ⟨h1, h2, h3, h4, h5, h6, h7, h8⟩ := h
  unfold Joystick.monStop at hs
  (repeat' split at hs) <;>
    simp only [Option.some.injEq, reduceCtorEq] at hs <;> subst hs <;>
    constructor <;> simp_all

theorem ctl_of_monSend {s s' : Sys σ} (h : Ctl s) (hs : monSend s = some s') : Ctl s' := by
  obtain ⟨h1, h2, h3, h4, h5, h6, h7, h8⟩ := h
  have hsm := atSample_ne_done s.pins
  unfold Joystick.monSend at hs
  (repeat' split at hs) <;>
    simp only [Option.some.injEq, reduceCtorEq] at hs <;> subst hs <;>
    constructor <;> simp_all

theorem ctl_of_recv {s s' : Sys σ} (h : Ctl s) (hs : recv s = some s') : Ctl s' := by
  obtain ⟨h1, h2, h3, h4, h5, h6, h7, h8⟩ := h
  unfold Joystick.recv at hs
  (repeat' split at hs) <;>
    simp only [Option.some.injEq, reduceCtorEq] at hs <;> subst hs <;>
    constructor <;> simp_all

theorem ctl_of_closeCall {s s' : Sys σ} (h : Ctl s) (hs : closeCall s = some s') : Ctl s' := by
  obtain ⟨h1, h2, h3, h4, h5, h6, h7, h8⟩ := h
  unfold Joystick.closeCall at hs
  (repeat' split at hs) <;>
    simp only [Option.some.injEq, reduceCtorEq] at hs <;> subst hs <;>
    constructor <;> simp_all

theorem ctl_of_closeWait {s s' : Sys σ} (h : Ctl s) (hs : closeWait s = some s') : Ctl s' := by
  obtain ⟨h1, h2, h3, h4, h5, h6, h7, h8⟩ := h
  unfold Joystick.closeWait at hs
  (repeat' split at hs) <;>
    simp only [Option.some.injEq, reduceCtorEq] at hs <;> subst hs <;>
    constructor <;> simp_all

theorem ctl_of_closeCleanup {H : Host σ} {s s' : Sys σ} (h : Ctl s)
    (hs : closeCleanup H s = some s') : Ctl s' := by
  obtain ⟨h1, h2, h3, h4, h5, h6, h7, h8⟩ := h
  unfold Joystick.closeCleanup at hs
  dsimp only at hs
  (repeat' split at hs) <;>
    simp only [Option.some.injEq, reduceCtorEq] at hs <;> subst hs <;>
    constructor <;> simp_all

theorem ctl_of_closeEvents {s s' : Sys σ} (h : Ctl s) (hs : closeEvents s = some s') : Ctl s' := by
  obtain ⟨h1, h2, h3, h4, h5, h6, h7, h8⟩ := h
  unfold Joystick.closeEvents at hs
  (repeat' split at hs) <;>
    simp only [Option.some.injEq, reduceCtorEq] at hs <;> subst hs <;>
    constructor <;> simp_all

theorem step_cases {H : Host σ} {s s' : Sys σ} {a : Action} (hs : step H s a = some s') :
    stepLive H s a = some s' := by
  have hc := step_some hs
  unfold step at hs
  simpa [hc] using hs

theorem ctl_step {H : Host σ} {s s' : Sys σ} {a : Action} (h : Ctl s)
    (hs : step H s a = some s') : Ctl s' := by
  have hs' := step_cases hs
  cases a with
  | read r => exact ctl_of_monRead h hs'
  | tick => exact ctl_of_monTick h hs'
  | stop => exact ctl_of_monStop h hs'
  | send => exact ctl_of_monSend h hs'
  | recv => exact ctl_of_recv h hs'
  | closeCall => exact ctl_of_closeCall h hs'
  | closeWait => exact ctl_of_closeWait h hs'
  | closeCleanup => exact ctl_of_closeCleanup h hs'
  | closeEvents => exact ctl_of_closeEvents h hs'

theorem run_induction {H : Host σ} (P : Sys σ → Prop)
    (hstep : ∀ s s' a, P s → step H s a = some s' → P s') :
    ∀ (acts : List Action) (s s' : Sys σ), P s → run H s acts = some s' → P s' := by
  intro acts
  induction acts with
  | nil =>
    intro s s' hp hr
    simp only [run, Option.some.injEq] at hr
    exact hr ▸ hp
  | cons a as ih =>
    intro s s' hp hr
    simp only [run] at hr
    cases hst : step H s a with
    | none => simp [hst] at hr
    | some s1 =>
      simp only [hst] at hr
      exact ih s1 s' (hstep s s1 a hp hst) hr

theorem reachable_ctl {H : Host σ} {s0 s : Sys σ} (h0 : Fresh s0) (hr : Reachable H s0 s) :
    Ctl s := by
  obtain ⟨acts, hrun⟩ := hr
  exact run_induction Ctl (fun _ _ _ hp hs => ctl_step hp hs) acts s0 s (fresh_ctl h0) hrun

theorem fresh_teardown (H : Host σ) {s : Sys σ} (h : Fresh s) : Teardown H s s := by
  constructor <;> simp [h.closer]

theorem teardown_of_monRead {H : Host σ} {s0 s s' : Sys σ} (r : Option Nat) (hc : Ctl s)
    (ht : Teardown H s0 s) (hs : monRead s r = some s') : Teardown H s0 s' := by
  obtain ⟨c1, c2, c3, c4, c5, c6, c7, c8⟩ := hc
  obtain ⟨t1, t2, t3, t4, t5, t6, t7, t8, t9, t10, t11⟩ := ht
  have hb := atBaseline_ne_done s.pins
  have hsm := atSample_ne_done s.pins
  unfold Joystick.monRead at hs
  try dsimp only at hs
  (repeat' split at hs) <;>
    simp only [Option.some.injEq, reduceCtorEq] at hs <;> subst hs <;>
    constructor <;> (try simp_all)

theorem teardown_of_monTick {H : Host σ} {s0 s s' : Sys σ}  (hc : Ctl s)
    (ht : Teardown H s0 s) (hs : monTick s = some s') : Teardown H s0 s' := by
  obtain ⟨c1, c2, c3, c4, c5, c6, c7, c8⟩ := hc
  obtain ⟨t1, t2, t3, t4, t5, t6, t7, t8, t9, t10, t11⟩ := ht
  have hb := atBaseline_ne_done s.pins
  have hsm := atSample_ne_done s.pins
  unfold Joystick.monTick at hs
  try dsimp only at hs
  (repeat' split at hs) <;>
    simp only [Option.some.injEq, reduceCtorEq] at hs <;> subst hs <;>
    constructor <;> (try simp_all)

theorem teardown_of_monStop {H : Host σ} {s0 s s' : Sys σ}  (hc : Ctl s)
    (ht : Teardown H s0 s) (hs : monStop s = some s') : Teardown H s0 s' := by
  obtain ⟨c1, c2, c3, c4, c5, c6, c7, c8⟩ := hc
  obtain ⟨t1, t2, t3, t4, t5, t6, t7, t8, t9, t10, t11⟩ := ht
  have hb := atBaseline_ne_done s.pins
  have hsm := atSample_ne_done s.pins
  unfold Joystick.monStop at hs
  try dsimp only at hs
  (repeat' split at hs) <;>
    simp only [Option.some.injEq, reduceCtorEq] at hs <;> subst hs <;>
    constructor <;> (try simp_all)

theorem teardown_of_monSend {H : Host σ} {s0 s s' : Sys σ}  (hc : Ctl s)
    (ht : Teardown H s0 s) (hs : monSend s = some s') : Teardown H s0 s' := by
  obtain ⟨c1, c2, c3, c4, c5, c6, c7, c8⟩ := hc
  obtain ⟨t1, t2, t3, t4, t5, t6, t7, t8, t9, t10, t11⟩ := ht
  have hb := atBaseline_ne_done s.pins
  have hsm := atSample_ne_done s.pins
  unfold Joystick.monSend at hs
  try dsimp only at hs
  (repeat' split at hs) <;>
    simp only [Option.some.injEq, reduceCtorEq] at hs <;> subst hs <;>
    constructor <;> (try simp_all)

theorem teardown_of_recv {H : Host σ} {s0 s s' : Sys σ}  (hc : Ctl s)
    (ht : Teardown H s0 s) (hs : recv s = some s') : Teardown H s0 s' := by
  obtain ⟨c1, c2, c3, c4, c5, c6, c7, c8⟩ := hc
  obtain ⟨t1, t2, t3, t4, t5, t6, t7, t8, t9, t10, t11⟩ := ht
  have hb := atBaseline_ne_done s.pins
  have hsm := atSample_ne_done s.pins
  unfold Joystick.recv at hs
  try dsimp only at hs
  (repeat' split at hs) <;>
    simp only [Option.some.injEq, reduceCtorEq] at hs <;> subst hs <;>
    constructor <;> (try simp_all)

theorem teardown_of_closeCall {H : Host σ} {s0 s s' : Sys σ}  (hc : Ctl s)
    (ht : Teardown H s0 s) (hs : closeCall s = some s') : Teardown H s0 s' := by
  obtain ⟨c1, c2, c3, c4, c5, c6, c7, c8⟩ := hc
  obtain ⟨t1, t2, t3, t4, t5, t6, t7, t8, t9, t10, t11⟩ := ht
  have hb := atBaseline_ne_done s.pins
  have hsm := atSample_ne_done s.pins
  unfold Joystick.closeCall at hs
  try dsimp only at hs
  (repeat' split at hs) <;>
    simp only [Option.some.injEq, reduceCtorEq] at hs <;> subst hs <;>
    constructor <;> (try simp_all)

theorem teardown_of_closeWait {H : Host σ} {s0 s s' : Sys σ}  (hc : Ctl s)
    (ht : Teardown H s0 s) (hs : closeWait s = some s') : Teardown H s0 s' := by
  obtain ⟨c1, c2, c3, c4, c5, c6, c7, c8⟩ := hc
  obtain ⟨t1, t2, t3, t4, t5, t6, t7, t8, t9, t10, t11⟩ := ht
  have hb := atBaseline_ne_done s.pins
  have hsm := atSample_ne_done s.pins
  unfold Joystick.closeWait at hs
  try dsimp only at hs
  (repeat' split at hs) <;>
    simp only [Option.some.injEq, reduceCtorEq] at hs <;> subst hs <;>
    constructor <;> (try simp_all)

theorem teardown_of_closeCleanup {H : Host σ} {s0 s s' : Sys σ}  (hc : Ctl s)
    (ht : Teardown H s0 s) (hs : closeCleanup H s = some s') : Teardown H s0 s' := by
  obtain ⟨c1, c2, c3, c4, c5, c6, c7, c8⟩ := hc
  obtain ⟨t1, t2, t3, t4, t5, t6, t7, t8, t9, t10, t11⟩ := ht
  have hb := atBaseline_ne_done s.pins
  have hsm := atSample_ne_done s.pins
  unfold Joystick.closeCleanup at hs
  try dsimp only at hs
  (repeat' split at hs) <;>
    simp only [Option.some.injEq, reduceCtorEq] at hs <;> subst hs <;>
    constructor <;> (try simp_all)

theorem teardown_of_closeEvents {H : Host σ} {s0 s s' : Sys σ}  (hc : Ctl s)
    (ht : Teardown H s0 s) (hs : Joystick.closeEvents s = some s') : Teardown H s0 s' := by
  obtain ⟨c1, c2, c3, c4, c5, c6, c7, c8⟩ := hc
  obtain ⟨t1, t2, t3, t4, t5, t6, t7, t8, t9, t10, t11⟩ := ht
  have hb := atBaseline_ne_done s.pins
  have hsm := atSample_ne_done s.pins
  unfold Joystick.closeEvents at hs
  try dsimp only at hs
  (repeat' split at hs) <;>
    simp only [Option.some.injEq, reduceCtorEq] at hs <;> subst hs <;>
    constructor <;> (try simp_all)

theorem teardown_step {H : Host σ} {s0 s s' : Sys σ} {a : Action} (hc : Ctl s)
    (ht : Teardown H s0 s) (hs : step H s a = some s') : Teardown H s0 s' := by
  have hs' := step_cases hs
  cases a with
  | read r => exact teardown_of_monRead r hc ht hs'
  | tick => exact teardown_of_monTick hc ht hs'
  | stop => exact teardown_of_monStop hc ht hs'
  | send => exact teardown_of_monSend hc ht hs'
  | recv => exact teardown_of_recv hc ht hs'
  | closeCall => exact teardown_of_closeCall hc ht hs'
  | closeWait => exact teardown_of_closeWait hc ht hs'
  | closeCleanup => exact teardown_of_closeCleanup hc ht hs'
  | closeEvents => exact teardown_of_closeEvents hc ht hs'

theorem reachable_teardown {H : Host σ} {s0 s : Sys σ} (h0 : Fresh s0)
    (hr : Reachable H s0 s) : Ctl s ∧ Teardown H s0 s := by
  obtain ⟨acts, hrun⟩ := hr
  exact run_induction (fun s => Ctl s ∧ Teardown H s0 s)
    (fun _ _ _ hp hs => ⟨ctl_step hp.1 hs, teardown_step hp.1 hp.2 hs⟩) acts s0 s
    ⟨fresh_ctl h0, fresh_teardown H h0⟩ hrun

theorem mapSet_fresh (vf : List (Int × Nat)) (pin : Int) (file : Nat)
    (h : ∀ kv ∈ vf, kv.1 ≠ pin) : mapSet vf pin file = vf ++ [(pin, file)] := by
  unfold mapSet
  rw [List.filter_eq_self.mpr]
  intro kv hkv
  simpa using h kv hkv

/-- On success the loop of `NewJoystick` has made the three successful calls of
every pin, and for distinct pins the map holds the handles in list order. -/
theorem initPins_ok (H : Host σ) (all : List Int) :
    ∀ (rest : List Int) (w : σ) (vf vf' : List (Int × Nat)),
      (initPins H all rest w vf).2.2 = .ok vf' →
      ∃ files : List Nat, files.length = rest.length ∧
        (initPins H all rest w vf).2.1 = okCalls rest files ∧
        (rest.Nodup → (∀ p ∈ rest, ∀ kv ∈ vf, kv.1 ≠ p) → vf' = vf ++ rest.zip files) := by
  intro rest
  induction rest with
  | nil =>
    intro w vf vf' h
    simp only [initPins, Except.ok.injEq] at h
    exact ⟨[], rfl, rfl, fun _ _ => by simp [h]⟩
  | cons pin rest ih =>
    intro w vf vf' h
    rcases h1 : exportGPIO H w pin with ⟨w1, e1⟩
    cases e1 with
    | some e => simp [initPins, h1] at h
    | none =>
      rcases h2 : setDirection H w1 pin "in" with ⟨w2, e2⟩
      cases e2 with
      | some e => simp [initPins, h1, h2] at h
      | none =>
        rcases h3 : H.openValue w2 pin with ⟨w3, e3⟩
        cases e3 with
        | error e => simp [initPins, h1, h2, h3] at h
        | ok file =>
          simp only [initPins, h1, h2, h3] at h ⊢
          obtain ⟨files, hlen, hcalls, hvf⟩ := ih w3 (mapSet vf pin file) vf' h
          refine ⟨file :: files, by simp [hlen], by simp [okCalls, hcalls], ?_⟩
          intro hnd hfresh
          have hnd' := List.nodup_cons.mp hnd
          have hm := mapSet_fresh vf pin file (hfresh pin (List.mem_cons_self _ _))
          rw [hvf hnd'.2 ?_, hm]
          · simp
          · intro p hp kv hkv
            rw [hm, List.mem_append] at hkv
            rcases hkv with hkv | hkv
            · exact hfresh p (List.mem_cons_of_mem _ hp) kv hkv
            · simp only [List.mem_singleton] at hkv
              subst hkv
              intro heq
              simp only at heq
              exact hnd'.1 (heq ▸ hp)

/-- What `NewJoystick` returns on success. -/
theorem NewJoystick_ok (H : Host σ) (w : σ) (pins : List Int) (pinNames : Int → String)
    (s0 : Sys σ) (h : (NewJoystick H w pins pinNames).2.2 = .ok s0) :
    Fresh s0 ∧ s0.pins = pins ∧ s0.pinNames = pinNames ∧ s0.tick = 0 ∧
    ∃ files : List Nat, files.length = pins.length ∧ s0.log = okCalls pins files ∧
      (pins.Nodup → s0.valueFiles = pins.zip files) := by
  cases hr : (initPins H pins pins w []).2.2 with
  | error e => simp [NewJoystick, hr] at h
  | ok vf =>
    obtain ⟨files, hlen, hcalls, hvf⟩ := initPins_ok H pins pins w [] vf hr
    simp only [NewJoystick, hr, Except.ok.injEq] at h
    subst h
    refine ⟨?_, rfl, rfl, rfl, files, hlen, hcalls, fun hnd => ?_⟩
    · constructor <;> simp [atBaseline]
    · simpa using hvf hnd (by simp)

theorem demoStart_eq :
    (NewJoystick okHost [] [17, 27] (fun _ => "")).2.2 = .ok demoStart := rfl

theorem demoClose_isSome : (run okHost demoStart demoClose).isSome = true := rfl

/-! ## C2: a second `Close` -/

/-- C2 (counterexample). On the joystick of pins 17 and 27, after the run
`demoClose` in which `Close` has returned nil, a second call of `Close` is
enabled and ends in a panic (`close` of the closed `stopChan`). -/
theorem second_close_panics :
    (run okHost demoStart demoClose).map (fun s => (s.closer, s.crashed))
      = some (.returned, false) ∧
    (run okHost demoStart (demoClose ++ [.closeCall])).map (fun s => (s.closer, s.crashed))
      = some (.returned, true) := by
  decide

/-- C2 (amended). For a joystick constructed with success, in every state in
which a first `Close` has returned and nothing has panicked, a second call of
`Close` panics at `close(j.stopChan)`: it changes nothing else, so it invokes
no release again and leaves the joystick, the host and the recorded calls as
the first `Close` left them. -/
theorem second_close_only_panics (H : Host σ) (w : σ) (pins : List Int)
    (pinNames : Int → String) (s0 s : Sys σ)
    (hnew : (NewJoystick H w pins pinNames).2.2 = .ok s0)
    (hr : Reachable H s0 s) (hret : s.closer = .returned) (hlive : s.crashed = false) :
    step H s .closeCall = some { s with crashed := true } := by
  obtain ⟨hfresh, _⟩ := NewJoystick_ok H w pins pinNames s0 hnew
  obtain ⟨hctl, _⟩ := reachable_teardown hfresh hr
  have hstop := (hctl.returned hret).2.1
  simp [step, stepLive, closeCall, hlive, hret, hstop]

/-- The second `Close` after the run `demoClose`: the step is the panic alone,
the recorded calls are those of the first `Close`. -/
theorem second_close_only_panics_witness :
    ∃ s : Sys (List Int),
      (NewJoystick okHost [] [17, 27] (fun _ => "")).2.2 = .ok demoStart ∧
      Reachable okHost demoStart s ∧ s.closer = .returned ∧ s.crashed = false ∧
      step okHost s .closeCall = some { s with crashed := true } :=
  ⟨(run okHost demoStart demoClose).get demoClose_isSome, demoStart_eq,
    ⟨demoClose, by simp⟩, rfl, rfl,
    second_close_only_panics okHost [] [17, 27] (fun _ => "") demoStart _ demoStart_eq
      ⟨demoClose, by simp⟩ rfl rfl⟩

/-! ## The order of the events -/

theorem indexOf_of_getElem? : ∀ (pins : List Int) (i : Nat) (p : Int),
    pins.Nodup → pins[i]? = some p → pins.indexOf p = i := by
  intro pins
  induction pins with
  | nil => intro i p _ h; simp at h
  | cons q ps ih =>
    intro i p hnd h
    have hnd' := List.nodup_cons.mp hnd
    cases i with
    | zero =>
      simp at h
      subst h
      exact List.indexOf_cons_self _ _
    | succ j =>
      simp at h
      have hmem : p ∈ ps := List.mem_iff_getElem?.mpr ⟨j, h⟩
      have hne : q ≠ p := fun e => hnd'.1 (e ▸ hmem)
      rw [List.indexOf_cons_ne _ hne, ih j p hnd'.2 h]

theorem fresh_ordered {s : Sys σ} (h : Fresh s) : Ordered s := by
  constructor
  · simp [h.delivered, h.eventChan, h.pushed]
  · simp [h.eventChan]
  · simp [h.pushed]
  · simp [h.pushed]
  · intro i e c hm
    have := h.mon
    rw [hm] at this
    unfold atBaseline at this
    split at this <;> cases this

/-- A step that leaves the stream and its history alone and moves the cursor
of `monitor` forward keeps the invariant. -/
theorem ordered_of_frame {s s' : Sys σ} (h : Ordered s)
    (hp : s'.pins = s.pins) (hpu : s'.pushed = s.pushed) (hd : s'.delivered = s.delivered)
    (hc : s'.eventChan = s.eventChan)
    (hmono : ∀ k, LexLt k (cursor s.mon s.tick) → LexLt k (cursor s'.mon s'.tick))
    (hsend : ∀ i e c, s'.mon = .send i e c → e.Timestamp = s'.tick ∧ s'.pins[i]? = some e.Pin) :
    Ordered s' := by
  constructor
  · rw [hd, hc, hpu]; exact h.fifo
  · rw [hc]; exact h.cap
  · rw [hpu, hp]; exact h.sorted
  · intro e he
    rw [hpu] at he
    rw [hp]
    exact hmono _ (h.below e he)
  · exact hsend

theorem cursor_atSample_mono (pins : List Int) (t j : Nat) (k : Nat × Nat)
    (h : LexLt k (t, j)) : LexLt k (cursor (atSample pins j) t) := by
  unfold LexLt at *
  unfold atSample
  split <;> simp only [cursor] <;> omega

theorem lexLt_succ {k : Nat × Nat} {t i : Nat} (h : LexLt k (t, i)) : LexLt k (t, i + 1) := by
  unfold LexLt at *
  omega

theorem ordered_of_monRead {s s' : Sys σ} {r : Option Nat} (h : Ordered s)
    (hs : monRead s r = some s') : Ordered s' := by
  unfold Joystick.monRead at hs
  dsimp only at hs
  split at hs
  · -- baseline
    rename_i i hm
    split at hs
    · cases hs
    · simp only [Option.some.injEq] at hs
      subst hs
      refine ordered_of_frame h rfl rfl rfl rfl ?_ ?_
      · intro k hk
        simp only [hm, cursor] at hk
        simp only [atBaseline]
        split <;> simpa [cursor] using hk
      · intro i' e c hm'
        simp only [atBaseline] at hm'
        split at hm' <;> cases hm'
  · -- sample
    rename_i i hm
    split at hs
    · cases hs
    · rename_i pin hpin
      split at hs
      · simp only [Option.some.injEq] at hs
        subst hs
        refine ordered_of_frame h rfl rfl rfl rfl ?_ ?_
        · intro k hk
          simp only [hm, cursor] at hk
          exact cursor_atSample_mono _ _ _ _ (lexLt_succ hk)
        · intro i' e c hm'
          simp only [atSample] at hm'
          split at hm' <;> cases hm'
      · split at hs
        · simp only [Option.some.injEq] at hs
          subst hs
          refine ordered_of_frame h rfl rfl rfl rfl ?_ ?_
          · intro k hk
            simpa [hm, cursor] using hk
          · intro i' e c hm'
            simp only [MonPc.send.injEq] at hm'
            obtain ⟨rfl, rfl, _⟩ := hm'
            exact ⟨rfl, hpin⟩
        · simp only [Option.some.injEq] at hs
          subst hs
          refine ordered_of_frame h rfl rfl rfl rfl ?_ ?_
          · intro k hk
            simp only [hm, cursor] at hk
            exact cursor_atSample_mono _ _ _ _ (lexLt_succ hk)
          · intro i' e c hm'
            simp only [atSample] at hm'
            split at hm' <;> cases hm'
  · cases hs

theorem ordered_of_monTick {s s' : Sys σ} (h : Ordered s)
    (hs : monTick s = some s') : Ordered s' := by
  unfold Joystick.monTick at hs
  split at hs
  · rename_i hm
    simp only [Option.some.injEq] at hs
    subst hs
    refine ordered_of_frame h rfl rfl rfl rfl ?_ ?_
    · intro k hk
      simp only [hm, cursor] at hk
      simp only [atSample]
      unfold LexLt at *
      split <;> simp only [cursor] <;> omega
    · intro i' e c hm'
      simp only [atSample] at hm'
      split at hm' <;> cases hm'
  · cases hs

theorem ordered_of_monStop {s s' : Sys σ} (h : Ordered s)
    (hs : monStop s = some s') : Ordered s' := by
  unfold Joystick.monStop at hs
  split at hs
  · rename_i hm
    split at hs
    · simp only [Option.some.injEq] at hs
      subst hs
      refine ordered_of_frame h rfl rfl rfl rfl ?_ ?_
      · intro k hk
        simpa [hm, cursor] using hk
      · intro i' e c hm'
        cases hm'
    · cases hs
  · cases hs

theorem ordered_of_monSend {s s' : Sys σ} (hnd : s.pins.Nodup) (h : Ordered s)
    (hs : monSend s = some s') : Ordered s' := by
  unfold Joystick.monSend at hs
  split at hs
  · rename_i i event cur hm
    obtain ⟨hts, hpin⟩ := h.sending i event cur hm
    have hidx := indexOf_of_getElem? s.pins i event.Pin hnd hpin
    have hkey : eventKey s.pins event = (s.tick, i) := by simp [eventKey, hts, hidx]
    split at hs
    · simp only [Option.some.injEq] at hs
      subst hs
      exact ordered_of_frame h rfl rfl rfl rfl (fun k hk => hk) h.sending
    · split at hs
      · rename_i hlen
        simp only [Option.some.injEq] at hs
        subst hs
        constructor
        · simp only [← List.append_assoc, h.fifo]
        · simp only [List.length_append, List.length_singleton]
          unfold eventChanCap at *
          omega
        · refine List.pairwise_append.mpr ⟨h.sorted, List.pairwise_singleton _ _, ?_⟩
          intro e he e' he'
          simp only [List.mem_singleton] at he'
          subst he'
          have := h.below e he
          simp only [hm, cursor] at this
          unfold Before
          rw [hkey]
          exact this
        · intro e he
          simp only [List.mem_append, List.mem_singleton] at he
          show LexLt (eventKey s.pins e) (cursor (atSample s.pins (i + 1)) s.tick)
          apply cursor_atSample_mono
          rcases he with he | rfl
          · have := h.below e he
            simp only [hm, cursor] at this
            exact lexLt_succ this
          · rw [hkey]
            unfold LexLt
            simp
        · intro i' e c hm'
          simp only [atSample] at hm'
          split at hm' <;> cases hm'
      · cases hs
  · cases hs

theorem ordered_of_recv {s s' : Sys σ} (h : Ordered s)
    (hs : recv s = some s') : Ordered s' := by
  unfold Joystick.recv at hs
  split at hs
  · rename_i e rest hch
    simp only [Option.some.injEq] at hs
    subst hs
    have hf := h.fifo
    have hc := h.cap
    rw [hch] at hf hc
    constructor
    · simpa using hf
    · simp only [List.length_cons] at hc
      show rest.length ≤ eventChanCap
      omega
    · exact h.sorted
    · exact h.below
    · exact h.sending
  · split at hs
    · simp only [Option.some.injEq] at hs
      subst hs
      exact ordered_of_frame h rfl rfl rfl rfl (fun k hk => hk) h.sending
    · cases hs

theorem ordered_of_closeCall {s s' : Sys σ} (h : Ordered s)
    (hs : closeCall s = some s') : Ordered s' := by
  unfold Joystick.closeCall at hs
  (repeat' split at hs) <;> simp only [Option.some.injEq, reduceCtorEq] at hs <;> subst hs <;>
    exact ordered_of_frame h rfl rfl rfl rfl (fun k hk => hk) h.sending

theorem ordered_of_closeWait {s s' : Sys σ} (h : Ordered s)
    (hs : closeWait s = some s') : Ordered s' := by
  unfold Joystick.closeWait at hs
  (repeat' split at hs) <;> simp only [Option.some.injEq, reduceCtorEq] at hs <;> subst hs <;>
    exact ordered_of_frame h rfl rfl rfl rfl (fun k hk => hk) h.sending

theorem ordered_of_closeCleanup {H : Host σ} {s s' : Sys σ} (h : Ordered s)
    (hs : closeCleanup H s = some s') : Ordered s' := by
  unfold Joystick.closeCleanup at hs
  dsimp only at hs
  (repeat' split at hs) <;> simp only [Option.some.injEq, reduceCtorEq] at hs <;> subst hs <;>
    exact ordered_of_frame h rfl rfl rfl rfl (fun k hk => hk) h.sending

theorem ordered_of_closeEvents {s s' : Sys σ} (h : Ordered s)
    (hs : Joystick.closeEvents s = some s') : Ordered s' := by
  unfold Joystick.closeEvents at hs
  (repeat' split at hs) <;> simp only [Option.some.injEq, reduceCtorEq] at hs <;> subst hs <;>
    exact ordered_of_frame h rfl rfl rfl rfl (fun k hk => hk) h.sending

theorem ordered_step {H : Host σ} {s s' : Sys σ} {a : Action} (hnd : s.pins.Nodup)
    (h : Ordered s) (hs : step H s a = some s') : Ordered s' := by
  have hs' := step_cases hs
  cases a with
  | read r => exact ordered_of_monRead h hs'
  | tick => exact ordered_of_monTick h hs'
  | stop => exact ordered_of_monStop h hs'
  | send => exact ordered_of_monSend hnd h hs'
  | recv => exact ordered_of_recv h hs'
  | closeCall => exact ordered_of_closeCall h hs'
  | closeWait => exact ordered_of_closeWait h hs'
  | closeCleanup => exact ordered_of_closeCleanup h hs'
  | closeEvents => exact ordered_of_closeEvents h hs'

theorem reachable_ordered {H : Host σ} {s0 s : Sys σ} (h0 : Fresh s0) (hnd : s0.pins.Nodup)
    (hr : Reachable H s0 s) : Ordered s := by
  obtain ⟨acts, hrun⟩ := hr
  have := run_induction (fun s => (Ctl s ∧ Teardown H s0 s) ∧ Ordered s)
    (fun s _ _ hp hs =>
      ⟨⟨ctl_step hp.1.1 hs, teardown_step hp.1.1 hp.1.2 hs⟩,
        ordered_step (hp.1.2.pins ▸ hnd) hp.2 hs⟩) acts s0 s
    ⟨⟨fresh_ctl h0, fresh_teardown H h0⟩, fresh_ordered h0⟩ hrun
  exact this.2

theorem demoBoth_isSome : (run okHost demoStart demoBoth).isSome = true := rfl

/-! ## C6: the order of the events -/

/-- C6. Event order: for a joystick constructed with success over distinct
pins, in every state of every execution the events sent so far are in the order
of `Before` (an earlier event is of an earlier tick, or of the same tick and of
a pin listed earlier at construction), and the stream is a FIFO buffer of at
most 10 events: what the consumer has received, followed by what is buffered,
is exactly what was sent, in the order sent. -/
theorem events_in_tick_and_pin_order (H : Host σ) (w : σ) (pins : List Int)
    (pinNames : Int → String) (s0 s : Sys σ) (hnd : pins.Nodup)
    (hnew : (NewJoystick H w pins pinNames).2.2 = .ok s0)
    (hr : Reachable H s0 s) :
    s.pushed.Pairwise (Before pins) ∧
    s.delivered ++ s.eventChan = s.pushed ∧
    s.eventChan.length ≤ eventChanCap := by
  obtain ⟨hfresh, hpins, _⟩ := NewJoystick_ok H w pins pinNames s0 hnew
  have hord := reachable_ordered hfresh (hpins ▸ hnd) hr
  have htd := (reachable_teardown hfresh hr).2
  refine ⟨?_, hord.fifo, hord.cap⟩
  have := hord.sorted
  rwa [htd.pins, hpins] at this

/-- The run `demoBoth`: pins 17 and 27 change in the same tick; the event of
pin 17, listed first, is sent first and is the one the consumer receives
first. -/
theorem events_in_tick_and_pin_order_witness :
    ∃ s : Sys (List Int), ([17, 27] : List Int).Nodup ∧
      (NewJoystick okHost [] [17, 27] (fun _ => "")).2.2 = .ok demoStart ∧
      Reachable okHost demoStart s ∧
      s.pushed = [⟨1, 17, "", "Pressed"⟩, ⟨1, 27, "", "Pressed"⟩] ∧
      s.delivered = [⟨1, 17, "", "Pressed"⟩] ∧
      s.eventChan = [⟨1, 27, "", "Pressed"⟩] ∧
      (s.pushed.Pairwise (Before [17, 27]) ∧
        s.delivered ++ s.eventChan = s.pushed ∧
        s.eventChan.length ≤ eventChanCap) :=
  ⟨(run okHost demoStart demoBoth).get demoBoth_isSome, by decide, demoStart_eq,
    ⟨demoBoth, by simp⟩, rfl, rfl, rfl,
    events_in_tick_and_pin_order okHost [] [17, 27] (fun _ => "") demoStart _ (by decide)
      demoStart_eq ⟨demoBoth, by simp⟩⟩

/-! ## C8: a send on the full stream and the stop signal -/

theorem demoFull_isSome : (run okHost demoStart demoFull).isSome = true := by decide

/-- In a state in which `monitor` stands at the send, the stream is full and
open, and the caller waits in `Close`, no step but a receive is enabled. -/
theorem stuck_of_full {H : Host σ} {s : Sys σ} {i : Nat} {e : Event} {c : List Nat}
    (hm : s.mon = .send i e c) (hfull : s.eventChan.length = eventChanCap)
    (hopen : s.eventClosed = false) (hcl : s.closer = .wait) (hwg : s.wg = 1) :
    ∀ a, a ≠ .recv → step H s a = none := by
  intro a ha
  unfold step
  split
  · rfl
  · cases a <;>
      simp [stepLive, monRead, monTick, monStop, monSend, closeCall, closeWait, closeCleanup,
        closeEvents, hm, hfull, hopen, hcl, hwg] at ha ⊢

theorem run_cons_of_step_none {H : Host σ} {s : Sys σ} {a : Action} (acts : List Action)
    (h : step H s a = none) : run H s (a :: acts) = none := by
  simp only [run, h]

/-- C8 (evaluation of the code). The run `demoFull` of the joystick on pins 17
and 27, in which nobody receives, ends in a state in which the stream holds 10
events, `monitor` stands at the send of an eleventh, the stop signal is
raised and the caller waits in `Close`; in this state no step other than a
receive by the consumer is enabled: `monitor` does not see the stop signal
and `Close` does not return. -/
theorem close_hangs_behind_full_stream :
    ∃ s : Sys (List Int), run okHost demoStart demoFull = some s ∧
      s.eventChan.length = 10 ∧ s.stopClosed = true ∧ s.closer = .wait ∧
      s.mon = .send 0 ⟨11, 17, "", "Pressed"⟩ [48] ∧ s.crashed = false ∧
      (∀ a, a ≠ .recv → step okHost s a = none) ∧
      (∀ a acts, a ≠ .recv → run okHost s (a :: acts) = none) := by
  have hstuck : ∀ a, a ≠ .recv →
      step okHost ((run okHost demoStart demoFull).get demoFull_isSome) a = none :=
    stuck_of_full (i := 0) (e := ⟨11, 17, "", "Pressed"⟩) (c := [48])
      (by decide) (by decide) (by decide) (by decide) (by decide)
  refine ⟨(run okHost demoStart demoFull).get demoFull_isSome, by simp, by decide, by decide,
    by decide, by decide, by decide, hstuck, ?_⟩
  intro a acts ha
  exact run_cons_of_step_none acts (hstuck a ha)

/-! ## C9: events and the stop signal -/

/-- Once `monitor` has returned it stays so, and nothing more is sent. -/
theorem step_of_done {H : Host σ} {s s' : Sys σ} {a : Action} (hm : s.mon = .done)
    (hs : step H s a = some s') : s'.mon = .done ∧ s'.pushed = s.pushed := by
  have hs' := step_cases hs
  cases a <;>
    simp only [stepLive, monRead, monTick, monStop, monSend, recv, closeCall, closeWait,
      closeCleanup, Joystick.closeEvents, hm] at hs' <;>
    (repeat' split at hs') <;>
    simp only [Option.some.injEq, reduceCtorEq] at hs' <;> subst hs' <;> exact ⟨rfl, rfl⟩

theorem run_of_done {H : Host σ} :
    ∀ (acts : List Action) (s s' : Sys σ), s.mon = .done → run H s acts = some s' →
      s'.mon = .done ∧ s'.pushed = s.pushed := by
  intro acts
  induction acts with
  | nil =>
    intro s s' hm hr
    simp only [run, Option.some.injEq] at hr
    subst hr
    exact ⟨hm, rfl⟩
  | cons a as ih =>
    intro s s' hm hr
    simp only [run] at hr
    cases hst : step H s a with
    | none => simp [hst] at hr
    | some s1 =>
      simp only [hst] at hr
      have h1 := step_of_done hm hst
      have h2 := ih s1 s' h1.1 hr
      exact ⟨h2.1, h2.2.trans h1.2⟩

/-- On a closed stream the consumer receives what is buffered, oldest first,
and then the end of the stream. -/
theorem drain_closed {H : Host σ} :
    ∀ (ch : List Event) (s : Sys σ), s.eventChan = ch → s.eventClosed = true →
      s.crashed = false →
      ∃ s', run H s (List.replicate (ch.length + 1) .recv) = some s' ∧
        s'.delivered = s.delivered ++ ch ∧ s'.eventChan = [] ∧ s'.eos = true ∧
        s'.pushed = s.pushed := by
  intro ch
  induction ch with
  | nil =>
    intro s hch hcl hlive
    refine ⟨{ s with eos := true }, ?_, by simp, hch, rfl, rfl⟩
    simp [run, step, stepLive, recv, hch, hcl, hlive]
  | cons e rest ih =>
    intro s hch hcl hlive
    obtain ⟨s', hrun, hd, hc, he, hp⟩ :=
      ih { s with eventChan := rest, delivered := s.delivered ++ [e] } rfl hcl hlive
    refine ⟨s', ?_, by simpa using hd, hc, he, hp⟩
    have hstep : step H s .recv
        = some { s with eventChan := rest, delivered := s.delivered ++ [e] } := by
      simp [step, stepLive, recv, hch, hlive]
    rw [List.length_cons, List.replicate_succ]
    simp only [run, hstep]
    exact hrun

/-- What was received, followed by what is buffered, is what was sent. -/
theorem fifo_step {H : Host σ} {s s' : Sys σ} {a : Action}
    (h : s.delivered ++ s.eventChan = s.pushed) (hs : step H s a = some s') :
    s'.delivered ++ s'.eventChan = s'.pushed := by
  have hs' := step_cases hs
  cases a <;>
    simp only [stepLive, monRead, monTick, monStop, monSend, recv, closeCall, closeWait,
      closeCleanup, Joystick.closeEvents] at hs' <;>
    (repeat' split at hs') <;>
    simp only [Option.some.injEq, reduceCtorEq] at hs' <;> subst hs' <;>
    first
      | exact h
      | (rw [← List.append_assoc, h])
      | (rename_i heq; rw [← h, heq]; simp)

theorem reachable_fifo {H : Host σ} {s0 s : Sys σ} (h0 : Fresh s0) (hr : Reachable H s0 s) :
    s.delivered ++ s.eventChan = s.pushed := by
  obtain ⟨acts, hrun⟩ := hr
  exact run_induction (fun s => s.delivered ++ s.eventChan = s.pushed)
    (fun _ _ _ hp hs => fifo_step hp hs) acts s0 s
    (by simp [h0.delivered, h0.eventChan, h0.pushed]) hrun

theorem demoDrain_isSome : (run okHost demoStart demoDrain).isSome = true := by decide

/-- C9 (counterexample). In the run `demoLate` the stop signal is raised by
`Close` when nothing has been sent yet; the `select` of `monitor` then takes
the ticker case, pin 17 is sampled, and its event is sent on the stream after
the stop signal. -/
theorem event_sent_after_stop_signal :
    (run okHost demoStart (demoLate.take 3)).map (fun s => (s.stopClosed, s.pushed))
      = some (true, []) ∧
    (run okHost demoStart demoLate).map (fun s => (s.stopClosed, s.pushed))
      = some (true, [⟨1, 17, "", "Pressed"⟩]) := by
  decide

/-- C9 (amended). For a joystick constructed with success: once `monitor` has
returned (it has taken the stop case of its `select`), no execution sends a
further event; and once `Close` has returned, `monitor` has returned and
the stream is closed, so that the consumer, receiving on, gets the buffered
events in order (it has then received exactly what was sent) and then the end
of the stream. -/
theorem no_event_after_monitor_exit (H : Host σ) (w : σ) (pins : List Int)
    (pinNames : Int → String) (s0 s : Sys σ)
    (hnew : (NewJoystick H w pins pinNames).2.2 = .ok s0)
    (hr : Reachable H s0 s) :
    (s.mon = .done → ∀ acts s', run H s acts = some s' → s'.pushed = s.pushed) ∧
    (s.closer = .returned →
      s.mon = .done ∧ s.eventClosed = true ∧
      (s.crashed = false →
        ∃ s', run H s (List.replicate (s.eventChan.length + 1) .recv) = some s' ∧
          s'.delivered = s.pushed ∧ s'.eventChan = [] ∧ s'.eos = true ∧
          s'.pushed = s.pushed)) := by
  obtain ⟨hfresh, hpins, _⟩ := NewJoystick_ok H w pins pinNames s0 hnew
  obtain ⟨hctl, htd⟩ := reachable_teardown hfresh hr
  refine ⟨fun hm acts s' hrun => (run_of_done acts s s' hm hrun).2, fun hret => ?_⟩
  obtain ⟨hm, _, hcl⟩ := hctl.returned hret
  refine ⟨hm, hcl, fun hlive => ?_⟩
  obtain ⟨s', hrun, hd, hc, he, hp⟩ := drain_closed (H := H) s.eventChan s rfl hcl hlive
  refine ⟨s', hrun, ?_, hc, he, hp⟩
  rw [hd]
  exact reachable_fifo hfresh hr

/-- The run `demoDrain`: when `Close` has returned one event is still
buffered; the consumer receives it and then the end of the stream. -/
theorem no_event_after_monitor_exit_witness :
    ∃ s : Sys (List Int),
      (NewJoystick okHost [] [17, 27] (fun _ => "")).2.2 = .ok demoStart ∧
      Reachable okHost demoStart s ∧ s.closer = .returned ∧ s.crashed = false ∧
      s.eventChan = [⟨1, 27, "", "Pressed"⟩] ∧
      (s.mon = .done → ∀ acts s', run okHost s acts = some s' → s'.pushed = s.pushed) ∧
      (s.closer = .returned →
        s.mon = .done ∧ s.eventClosed = true ∧
        (s.crashed = false →
          ∃ s', run okHost s (List.replicate (s.eventChan.length + 1) .recv) = some s' ∧
            s'.delivered = s.pushed ∧ s'.eventChan = [] ∧ s'.eos = true ∧
            s'.pushed = s.pushed)) :=
  ⟨(run okHost demoStart demoDrain).get demoDrain_isSome, demoStart_eq,
    ⟨demoDrain, by simp⟩, by decide, by decide, by decide,
    no_event_after_monitor_exit okHost [] [17, 27] (fun _ => "") demoStart _ demoStart_eq
      ⟨demoDrain, by simp⟩⟩

/-! ## `Close` can return -/

theorem atBaseline_cases (pins : List Int) (j : Nat) :
    (j < pins.length ∧ atBaseline pins j = .baseline j) ∨
    (pins.length ≤ j ∧ atBaseline pins j = .select) := by
  unfold atBaseline
  by_cases h : j < pins.length
  · exact Or.inl ⟨h, by simp [h]⟩
  · exact Or.inr ⟨by omega, by simp [h]⟩

theorem atSample_cases (pins : List Int) (j : Nat) :
    (j < pins.length ∧ atSample pins j = .sample j) ∨
    (pins.length ≤ j ∧ atSample pins j = .select) := by
  unfold atSample
  by_cases h : j < pins.length
  · exact Or.inl ⟨h, by simp [h]⟩
  · exact Or.inr ⟨by omega, by simp [h]⟩

theorem pcOk_of_atBaseline {s : Sys σ} (j : Nat) (h : s.mon = atBaseline s.pins j) : PcOk s := by
  rcases atBaseline_cases s.pins j with ⟨hj, he⟩ | ⟨_, he⟩ <;> rw [he] at h <;>
    constructor <;> intros <;> simp_all

theorem pcOk_of_atSample {s : Sys σ} (j : Nat) (h : s.mon = atSample s.pins j) : PcOk s := by
  rcases atSample_cases s.pins j with ⟨hj, he⟩ | ⟨_, he⟩ <;> rw [he] at h <;>
    constructor <;> intros <;> simp_all

theorem pcOk_of_mon_eq {s s' : Sys σ} (h : PcOk s) (hp : s'.pins = s.pins)
    (hm : s'.mon = s.mon) : PcOk s' := by
  constructor
  · intro i hi; rw [hp]; exact h.baseline i (hm ▸ hi)
  · intro i hi; rw [hp]; exact h.sample i (hm ▸ hi)
  · intro i e c hi; rw [hp]; exact h.send i e c (hm ▸ hi)

theorem pcOk_of_ctl_mon {s' : Sys σ} (hm : s'.mon = .select ∨ s'.mon = .done) : PcOk s' := by
  constructor <;> intros <;> rcases hm with hm | hm <;> simp_all

theorem pcOk_step {H : Host σ} {s s' : Sys σ} {a : Action} (h : PcOk s)
    (hs : step H s a = some s') : PcOk s' := by
  have hs' := step_cases hs
  cases a with
  | read r =>
    simp only [stepLive, monRead] at hs'
    split at hs'
    · split at hs'
      · cases hs'
      · simp only [Option.some.injEq] at hs'
        subst hs'
        exact pcOk_of_atBaseline _ rfl
    · rename_i i hm
      split at hs'
      · cases hs'
      · split at hs'
        · simp only [Option.some.injEq] at hs'
          subst hs'
          exact pcOk_of_atSample _ rfl
        · split at hs'
          · simp only [Option.some.injEq] at hs'
            subst hs'
            have hi := h.sample i hm
            constructor <;> intros <;> simp_all
          · simp only [Option.some.injEq] at hs'
            subst hs'
            exact pcOk_of_atSample _ rfl
    · cases hs'
  | tick =>
    simp only [stepLive, monTick] at hs'
    split at hs'
    · simp only [Option.some.injEq] at hs'
      subst hs'
      exact pcOk_of_atSample _ rfl
    · cases hs'
  | stop =>
    simp only [stepLive, monStop] at hs'
    (repeat' split at hs') <;> simp only [Option.some.injEq, reduceCtorEq] at hs'
    subst hs'
    exact pcOk_of_ctl_mon (Or.inr rfl)
  | send =>
    simp only [stepLive, monSend] at hs'
    split at hs'
    · split at hs'
      · simp only [Option.some.injEq] at hs'
        subst hs'
        exact pcOk_of_mon_eq h rfl rfl
      · split at hs'
        · simp only [Option.some.injEq] at hs'
          subst hs'
          exact pcOk_of_atSample _ rfl
        · cases hs'
    · cases hs'
  | recv =>
    simp only [stepLive, recv] at hs'
    (repeat' split at hs') <;> simp only [Option.some.injEq, reduceCtorEq] at hs' <;>
      subst hs' <;> exact pcOk_of_mon_eq h rfl rfl
  | closeCall =>
    simp only [stepLive, closeCall] at hs'
    (repeat' split at hs') <;> simp only [Option.some.injEq, reduceCtorEq] at hs' <;>
      subst hs' <;> exact pcOk_of_mon_eq h rfl rfl
  | closeWait =>
    simp only [stepLive, closeWait] at hs'
    (repeat' split at hs') <;> simp only [Option.some.injEq, reduceCtorEq] at hs' <;>
      subst hs' <;> exact pcOk_of_mon_eq h rfl rfl
  | closeCleanup =>
    simp only [stepLive, closeCleanup] at hs'
    (repeat' split at hs') <;> simp only [Option.some.injEq, reduceCtorEq] at hs' <;>
      subst hs' <;> exact pcOk_of_mon_eq h rfl rfl
  | closeEvents =>
    simp only [stepLive, Joystick.closeEvents] at hs'
    (repeat' split at hs') <;> simp only [Option.some.injEq, reduceCtorEq] at hs' <;>
      subst hs' <;> exact pcOk_of_mon_eq h rfl rfl

theorem reachable_pcOk {H : Host σ} {s0 s : Sys σ} (h0 : Fresh s0) (hr : Reachable H s0 s) :
    PcOk s := by
  obtain ⟨acts, hrun⟩ := hr
  exact run_induction PcOk (fun _ _ _ hp hs => pcOk_step hp hs) acts s0 s
    (pcOk_of_atBaseline 0 h0.mon) hrun

theorem run_append {H : Host σ} :
    ∀ (as bs : List Action) (s : Sys σ),
      run H s (as ++ bs) = (run H s as).bind (fun s' => run H s' bs) := by
  intro as
  induction as with
  | nil => intro bs s; rfl
  | cons a as ih =>
    intro bs s
    simp only [List.cons_append, run]
    cases step H s a with
    | none => rfl
    | some s1 => exact ih bs s1

theorem run_trans {H : Host σ} {s s1 s2 : Sys σ} {as bs : List Action}
    (h1 : run H s as = some s1) (h2 : run H s1 bs = some s2) :
    run H s (as ++ bs) = some s2 := by
  rw [run_append, h1]
  exact h2

theorem reachable_run {H : Host σ} {s0 s s' : Sys σ} {acts : List Action}
    (hr : Reachable H s0 s) (h : run H s acts = some s') : Reachable H s0 s' := by
  obtain ⟨as, has⟩ := hr
  exact ⟨as ++ acts, run_trans has h⟩

theorem run_single {H : Host σ} {s s' : Sys σ} {a : Action} (h : step H s a = some s') :
    run H s [a] = some s' := by
  simp only [run, h]

theorem Frame.refl (s : Sys σ) : Frame s s := ⟨rfl, rfl, rfl, rfl, rfl⟩

theorem Frame.trans {s s1 s2 : Sys σ} (h1 : Frame s s1) (h2 : Frame s1 s2) : Frame s s2 :=
  ⟨h2.pins.trans h1.pins, h2.closer.trans h1.closer, h2.crashed.trans h1.crashed,
    h2.eventClosed.trans h1.eventClosed, h2.stopClosed.trans h1.stopClosed⟩

/-- From inside a sampling pass `monitor` gets back to its `select` (here by
reads that fail). -/
theorem drive_sample {H : Host σ} :
    ∀ (k : Nat) (s : Sys σ) (i : Nat), s.pins.length - i = k →
      s.mon = atSample s.pins i → s.crashed = false →
      ∃ acts s', run H s acts = some s' ∧ Frame s s' ∧ s'.mon = .select := by
  intro k
  induction k with
  | zero =>
    intro s i hk hm _
    rcases atSample_cases s.pins i with ⟨hi, _⟩ | ⟨_, he⟩
    · omega
    · exact ⟨[], s, rfl, Frame.refl s, hm.trans he⟩
  | succ k ih =>
    intro s i hk hm hlive
    rcases atSample_cases s.pins i with ⟨hi, he⟩ | ⟨_, he⟩
    · have hpin : s.pins[i]? = some s.pins[i] := List.getElem?_eq_getElem hi
      have hstep : step H s (.read none) = some { s with mon := atSample s.pins (i + 1) } := by
        simp [step, stepLive, monRead, hlive, hm.trans he, hpin]
      obtain ⟨acts, s', hrun, hf, hsel⟩ :=
        ih { s with mon := atSample s.pins (i + 1) } (i + 1) (by simp; omega) rfl hlive
      exact ⟨.read none :: acts, s', by simp only [run, hstep]; exact hrun,
        ⟨hf.pins, hf.closer, hf.crashed, hf.eventClosed, hf.stopClosed⟩, hsel⟩
    · exact ⟨[], s, rfl, Frame.refl s, hm.trans he⟩

/-- From inside the baseline loop `monitor` gets to its `select`. -/
theorem drive_baseline {H : Host σ} :
    ∀ (k : Nat) (s : Sys σ) (i : Nat), s.pins.length - i = k →
      s.mon = atBaseline s.pins i → s.crashed = false →
      ∃ acts s', run H s acts = some s' ∧ Frame s s' ∧ s'.mon = .select := by
  intro k
  induction k with
  | zero =>
    intro s i hk hm _
    rcases atBaseline_cases s.pins i with ⟨hi, _⟩ | ⟨_, he⟩
    · omega
    · exact ⟨[], s, rfl, Frame.refl s, hm.trans he⟩
  | succ k ih =>
    intro s i hk hm hlive
    rcases atBaseline_cases s.pins i with ⟨hi, he⟩ | ⟨_, he⟩
    · have hpin : s.pins[i]? = some s.pins[i] := List.getElem?_eq_getElem hi
      have hstep : step H s (.read none) =
          some { s with locals := baselineStep s.pins[i] none s.locals,
                        mon := atBaseline s.pins (i + 1) } := by
        simp [step, stepLive, monRead, hlive, hm.trans he, hpin]
      obtain ⟨acts, s', hrun, hf, hsel⟩ :=
        ih { s with locals := baselineStep s.pins[i] none s.locals,
                    mon := atBaseline s.pins (i + 1) } (i + 1) (by simp; omega) rfl hlive
      exact ⟨.read none :: acts, s', by simp only [run, hstep]; exact hrun,
        ⟨hf.pins, hf.closer, hf.crashed, hf.eventClosed, hf.stopClosed⟩, hsel⟩
    · exact ⟨[], s, rfl, Frame.refl s, hm.trans he⟩

/-- A send completes once the consumer has made room in the stream. -/
theorem drive_send {H : Host σ} :
    ∀ (n : Nat) (s : Sys σ) (i : Nat) (e : Event) (c : List Nat), s.eventChan.length = n →
      s.mon = .send i e c → s.crashed = false → s.eventClosed = false →
      ∃ acts s', run H s acts = some s' ∧ Frame s s' ∧ s'.mon = atSample s.pins (i + 1) := by
  intro n
  induction n with
  | zero =>
    intro s i e c hn hm hlive hopen
    have hstep : step H s .send = some { s with
        eventChan := s.eventChan ++ [e], pushed := s.pushed ++ [e],
        locals := ⟨Function.update s.locals.lastStates e.Pin c, s.locals.buffer⟩,
        mon := atSample s.pins (i + 1) } := by
      simp [step, stepLive, monSend, hlive, hm, hopen, hn, eventChanCap]
    exact ⟨[.send], _, run_single hstep, ⟨rfl, rfl, rfl, rfl, rfl⟩, rfl⟩
  | succ n ih =>
    intro s i e c hn hm hlive hopen
    cases hch : s.eventChan with
    | nil => simp [hch] at hn
    | cons e0 rest =>
      have hstep : step H s .recv
          = some { s with eventChan := rest, delivered := s.delivered ++ [e0] } := by
        simp [step, stepLive, recv, hch, hlive]
      obtain ⟨acts, s', hrun, hf, hsel⟩ :=
        ih { s with eventChan := rest, delivered := s.delivered ++ [e0] } i e c
          (by simpa [hch] using hn) hm hlive hopen
      exact ⟨.recv :: acts, s', by simp only [run, hstep]; exact hrun,
        ⟨hf.pins, hf.closer, hf.crashed, hf.eventClosed, hf.stopClosed⟩, hsel⟩

/-- Whatever `monitor` is doing, some continuation (the consumer receiving when
the stream is full) brings it back to its `select`. -/
theorem to_select {H : Host σ} (s : Sys σ) (hpc : PcOk s) (hmon : s.mon ≠ .done)
    (hlive : s.crashed = false) (hopen : s.eventClosed = false) :
    ∃ acts s', run H s acts = some s' ∧ Frame s s' ∧ s'.mon = .select := by
  cases hm : s.mon with
  | baseline i =>
    have hi := hpc.baseline i hm
    exact drive_baseline _ s i rfl (by simp [hm, atBaseline, hi]) hlive
  | select => exact ⟨[], s, rfl, Frame.refl s, hm⟩
  | sample i =>
    have hi := hpc.sample i hm
    exact drive_sample _ s i rfl (by simp [hm, atSample, hi]) hlive
  | send i e c =>
    obtain ⟨a1, s1, hr1, hf1, hm1⟩ := drive_send _ s i e c rfl hm hlive hopen
    obtain ⟨a2, s2, hr2, hf2, hm2⟩ :=
      drive_sample (H := H) _ s1 (i + 1) rfl (by rw [hm1, hf1.pins]) (hf1.crashed.trans hlive)
    exact ⟨a1 ++ a2, s2, run_trans hr1 hr2, hf1.trans hf2, hm2⟩
  | done => exact absurd hm hmon

/-- For a joystick constructed with success, from every state in which nothing
has panicked some continuation ends with `Close` returned: `Close` is called
if it was not, `monitor` gets to its `select` and takes the stop case, and
`Close` runs to its end. -/
theorem close_can_return {H : Host σ} {s0 s : Sys σ} (h0 : Fresh s0)
    (hr : Reachable H s0 s) (hlive : s.crashed = false) :
    ∃ acts s', run H s acts = some s' ∧ s'.closer = .returned ∧ s'.crashed = false := by
  -- from `closeEvents`
  have hE : ∀ s : Sys σ, Reachable H s0 s → s.closer = .closeEvents →
      ∃ acts s', run H s acts = some s' ∧ s'.closer = .returned ∧ s'.crashed = false := by
    intro s hr hc
    obtain ⟨_, _, hopen, hl⟩ := (reachable_ctl h0 hr).closeEvents hc
    have hstep : step H s .closeEvents = some { s with
        eventClosed := true, log := s.log ++ [Call.closeEvents], closer := .returned } := by
      simp [step, stepLive, Joystick.closeEvents, hl, hc, hopen]
    exact ⟨[.closeEvents], _, run_single hstep, rfl, hl⟩
  -- from `cleanup`
  have hC : ∀ s : Sys σ, Reachable H s0 s → s.closer = .cleanup →
      ∃ acts s', run H s acts = some s' ∧ s'.closer = .returned ∧ s'.crashed = false := by
    intro s hr hc
    obtain ⟨_, _, _, hl⟩ := (reachable_ctl h0 hr).cleanup hc
    have hstep : step H s .closeCleanup = some { s with
        host := (cleanup H s.host s.pins s.valueFiles).1,
        log := s.log ++ (cleanup H s.host s.pins s.valueFiles).2, closer := .closeEvents } := by
      simp [step, stepLive, closeCleanup, hl, hc]
    obtain ⟨acts, s', hrun, h1, h2⟩ := hE _ (reachable_run hr (run_single hstep)) rfl
    exact ⟨[.closeCleanup] ++ acts, s', run_trans (run_single hstep) hrun, h1, h2⟩
  -- from `wait` with `monitor` returned
  have hD : ∀ s : Sys σ, Reachable H s0 s → s.closer = .wait → s.mon = .done →
      ∃ acts s', run H s acts = some s' ∧ s'.closer = .returned ∧ s'.crashed = false := by
    intro s hr hc hm
    have hctl := reachable_ctl h0 hr
    obtain ⟨_, _, hl⟩ := hctl.wait hc
    have hstep : step H s .closeWait = some { s with closer := .cleanup } := by
      simp [step, stepLive, closeWait, hl, hc, hctl.wg_done hm]
    obtain ⟨acts, s', hrun, h1, h2⟩ := hC _ (reachable_run hr (run_single hstep)) rfl
    exact ⟨[.closeWait] ++ acts, s', run_trans (run_single hstep) hrun, h1, h2⟩
  -- from `wait`
  have hW : ∀ s : Sys σ, Reachable H s0 s → s.closer = .wait →
      ∃ acts s', run H s acts = some s' ∧ s'.closer = .returned ∧ s'.crashed = false := by
    intro s hr hc
    by_cases hm : s.mon = .done
    · exact hD s hr hc hm
    · obtain ⟨hstop, hopen, hl⟩ := (reachable_ctl h0 hr).wait hc
      obtain ⟨a1, s1, hr1, hf, hsel⟩ := to_select (H := H) s (reachable_pcOk h0 hr) hm hl hopen
      have hstep : step H s1 .stop = some { s1 with
          mon := .done, wg := s1.wg - 1, log := s1.log ++ [Call.monitorExit] } := by
        simp [step, stepLive, monStop, hf.crashed.trans hl, hsel, hf.stopClosed.trans hstop]
      have hr2 := reachable_run (reachable_run hr hr1) (run_single hstep)
      obtain ⟨acts, s', hrun, h1, h2⟩ := hD _ hr2 (hf.closer.trans hc) rfl
      exact ⟨a1 ++ ([.stop] ++ acts), s', run_trans hr1 (run_trans (run_single hstep) hrun),
        h1, h2⟩
  cases hc : s.closer with
  | idle =>
    obtain ⟨hstop, _, _⟩ := (reachable_ctl h0 hr).idle hc
    have hstep : step H s .closeCall = some { s with stopClosed := true, closer := .wait } := by
      simp [step, stepLive, closeCall, hlive, hc, hstop]
    obtain ⟨acts, s', hrun, h1, h2⟩ := hW _ (reachable_run hr (run_single hstep)) rfl
    exact ⟨[.closeCall] ++ acts, s', run_trans (run_single hstep) hrun, h1, h2⟩
  | wait => exact hW s hr hc
  | cleanup => exact hC s hr hc
  | closeEvents => exact hE s hr hc
  | returned => exact ⟨[], s, rfl, hc, hlive⟩

/-! ## The passes of `monitor` as runs of the system -/

theorem drop_cons_at {pins : List Int} {i : Nat} {pin : Int} {ps : List Int}
    (h : pins.drop i = pin :: ps) :
    i < pins.length ∧ pins[i]? = some pin ∧ pins.drop (i + 1) = ps := by
  have hi : i < pins.length := by
    by_contra hc
    rw [List.drop_eq_nil_of_le (by omega)] at h
    cases h
  rw [List.drop_eq_getElem_cons hi] at h
  simp only [List.cons.injEq] at h
  exact ⟨hi, by rw [List.getElem?_eq_getElem hi, h.1], h.2⟩

/-- A sampling pass of the system, each event received as soon as it is sent,
does what `tickPass` says. -/
theorem pass_run {H : Host σ} :
    ∀ (rest : List Int) (rs : List (Option Nat)) (s : Sys σ) (i : Nat),
      s.pins.drop i = rest → rs.length = rest.length → s.mon = atSample s.pins i →
      s.crashed = false → s.eventClosed = false → s.eventChan = [] →
      ∃ s', run H s (passActions s.pinNames s.tick rest rs s.locals) = some s' ∧
        s'.mon = .select ∧
        s'.locals = (tickPass s.pinNames s.tick rest rs s.locals).1 ∧
        s'.pushed = s.pushed ++ (tickPass s.pinNames s.tick rest rs s.locals).2 ∧
        s'.delivered = s.delivered ++ (tickPass s.pinNames s.tick rest rs s.locals).2 ∧
        s'.eventChan = [] ∧ s'.tick = s.tick ∧ s'.pinNames = s.pinNames ∧ Frame s s' := by
  intro rest
  induction rest with
  | nil =>
    intro rs s i hd _ hm _ _ hch
    have hlen : s.pins.length ≤ i := List.drop_eq_nil_iff.mp hd
    have hsel : s.mon = .select := by
      rw [hm]; simp [atSample]; omega
    cases rs <;>
      exact ⟨s, rfl, hsel, rfl, by simp [tickPass], by simp [tickPass], hch, rfl, rfl,
        Frame.refl s⟩
  | cons pin ps ih =>
    intro rs s i hd hlen hm hlive hopen hch
    obtain ⟨hi, hpin, hd'⟩ := drop_cons_at hd
    have hmon : s.mon = .sample i := by rw [hm]; simp [atSample, hi]
    cases rs with
    | nil => simp at hlen
    | cons r rs =>
      have hlen' : rs.length = ps.length := by simpa using hlen
      cases r with
      | none =>
        have hstep : step H s (.read none) = some { s with mon := atSample s.pins (i + 1) } := by
          simp [step, stepLive, monRead, hlive, hmon, hpin]
        obtain ⟨s', hrun, h1, h2, h3, h4, h5, h6, h7, hf⟩ :=
          ih rs { s with mon := atSample s.pins (i + 1) } (i + 1) hd' hlen' rfl hlive hopen hch
        refine ⟨s', ?_, h1, ?_, ?_, ?_, h5, h6, h7,
          ⟨hf.pins, hf.closer, hf.crashed, hf.eventClosed, hf.stopClosed⟩⟩
        · simp only [passActions, sampleStep_none, Option.isSome_none, Bool.false_eq_true,
            if_false, List.cons_append, List.nil_append, run, hstep]
          exact hrun
        · simpa [tickPass, sampleStep_none] using h2
        · simpa [tickPass, sampleStep_none] using h3
        · simpa [tickPass, sampleStep_none] using h4
      | some b =>
        by_cases hc : trimSpaceByte b = s.locals.lastStates pin
        · have hstep : step H s (.read (some b)) = some { s with
              locals := ⟨s.locals.lastStates, b⟩, mon := atSample s.pins (i + 1) } := by
            simp [step, stepLive, monRead, hlive, hmon, hpin, hc]
          obtain ⟨s', hrun, h1, h2, h3, h4, h5, h6, h7, hf⟩ :=
            ih rs { s with locals := ⟨s.locals.lastStates, b⟩, mon := atSample s.pins (i + 1) }
              (i + 1) hd' hlen' rfl hlive hopen hch
          refine ⟨s', ?_, h1, ?_, ?_, ?_, h5, h6, h7,
            ⟨hf.pins, hf.closer, hf.crashed, hf.eventClosed, hf.stopClosed⟩⟩
          · simp only [passActions, sampleStep_same _ _ _ _ _ hc, Option.isSome_none,
              Bool.false_eq_true, if_false, List.cons_append, List.nil_append, run, hstep]
            exact hrun
          · simpa [tickPass, sampleStep_same _ _ _ _ _ hc] using h2
          · simpa [tickPass, sampleStep_same _ _ _ _ _ hc] using h3
          · simpa [tickPass, sampleStep_same _ _ _ _ _ hc] using h4
        · have hrun3 : run H s [.read (some b), .send, .recv] = some { s with
              locals := ⟨Function.update s.locals.lastStates pin (trimSpaceByte b), b⟩,
              mon := atSample s.pins (i + 1),
              eventChan := [],
              pushed := s.pushed ++
                [{ Timestamp := s.tick, Pin := pin, Direction := s.pinNames pin,
                   State := if trimSpaceByte b = [48] then "Pressed" else "Released" }],
              delivered := s.delivered ++
                [{ Timestamp := s.tick, Pin := pin, Direction := s.pinNames pin,
                   State := if trimSpaceByte b = [48] then "Pressed" else "Released" }] } := by
            simp [run, step, stepLive, monRead, monSend, recv, hlive, hmon, hpin, hc, hopen, hch,
              eventChanCap]
          obtain ⟨s', hrun, h1, h2, h3, h4, h5, h6, h7, hf⟩ :=
            ih rs { s with
              locals := ⟨Function.update s.locals.lastStates pin (trimSpaceByte b), b⟩,
              mon := atSample s.pins (i + 1),
              eventChan := [],
              pushed := s.pushed ++
                [{ Timestamp := s.tick, Pin := pin, Direction := s.pinNames pin,
                   State := if trimSpaceByte b = [48] then "Pressed" else "Released" }],
              delivered := s.delivered ++
                [{ Timestamp := s.tick, Pin := pin, Direction := s.pinNames pin,
                   State := if trimSpaceByte b = [48] then "Pressed" else "Released" }] }
              (i + 1) hd' hlen' rfl hlive hopen rfl
          refine ⟨s', ?_, h1, ?_, ?_, ?_, h5, h6, h7,
            ⟨hf.pins, hf.closer, hf.crashed, hf.eventClosed, hf.stopClosed⟩⟩
          · simp only [passActions, sampleStep_change _ _ _ _ _ hc, Option.isSome_some,
              if_true, List.cons_append, List.nil_append]
            have h3 := run_trans hrun3 hrun
            simpa using h3
          · simpa [tickPass, sampleStep_change _ _ _ _ _ hc] using h2
          · simpa [tickPass, sampleStep_change _ _ _ _ _ hc] using h3
          · simpa [tickPass, sampleStep_change _ _ _ _ _ hc] using h4

/-- The baseline loop of the system does what `baselinePass` says. -/
theorem base_run {H : Host σ} :
    ∀ (rest : List Int) (rs : List (Option Nat)) (s : Sys σ) (i : Nat),
      s.pins.drop i = rest → rs.length = rest.length → s.mon = atBaseline s.pins i →
      s.crashed = false →
      ∃ s', run H s (rs.map Action.read) = some s' ∧
        s'.mon = .select ∧ s'.locals = baselinePass rest rs s.locals ∧
        s'.pushed = s.pushed ∧ s'.delivered = s.delivered ∧ s'.eventChan = s.eventChan ∧
        s'.tick = s.tick ∧ s'.pinNames = s.pinNames ∧ Frame s s' := by
  intro rest
  induction rest with
  | nil =>
    intro rs s i hd hlen hm _
    have hle : s.pins.length ≤ i := List.drop_eq_nil_iff.mp hd
    have hsel : s.mon = .select := by
      rw [hm]; simp [atBaseline]; omega
    cases rs with
    | nil => exact ⟨s, rfl, hsel, rfl, rfl, rfl, rfl, rfl, rfl, Frame.refl s⟩
    | cons r rs => simp at hlen
  | cons pin ps ih =>
    intro rs s i hd hlen hm hlive
    obtain ⟨hi, hpin, hd'⟩ := drop_cons_at hd
    have hmon : s.mon = .baseline i := by rw [hm]; simp [atBaseline, hi]
    cases rs with
    | nil => simp at hlen
    | cons r rs =>
      have hlen' : rs.length = ps.length := by simpa using hlen
      have hstep : step H s (.read r) = some { s with
          locals := baselineStep pin r s.locals, mon := atBaseline s.pins (i + 1) } := by
        simp [step, stepLive, monRead, hlive, hmon, hpin]
      obtain ⟨s', hrun, h1, h2, h3, h4, h5, h6, h7, hf⟩ :=
        ih rs { s with locals := baselineStep pin r s.locals, mon := atBaseline s.pins (i + 1) }
          (i + 1) hd' hlen' rfl hlive
      refine ⟨s', ?_, h1, ?_, h3, h4, h5, h6, h7,
        ⟨hf.pins, hf.closer, hf.crashed, hf.eventClosed, hf.stopClosed⟩⟩
      · simp only [List.map_cons, run, hstep]
        exact hrun
      · simpa [baselinePass] using h2

/-- The ticks of the system, each event received as soon as it is sent, send
what `monitorPasses` says. -/
theorem ticks_run {H : Host σ} :
    ∀ (ticks : List (List (Option Nat))) (s : Sys σ),
      s.mon = .select → s.crashed = false → s.eventClosed = false → s.eventChan = [] →
      (∀ rs ∈ ticks, rs.length = s.pins.length) →
      ∃ s', run H s (ticksActions s.pinNames s.pins (s.tick + 1) ticks s.locals) = some s' ∧
        s'.mon = .select ∧
        s'.pushed = s.pushed ++ monitorPasses s.pinNames s.pins (s.tick + 1) ticks s.locals ∧
        s'.delivered =
          s.delivered ++ monitorPasses s.pinNames s.pins (s.tick + 1) ticks s.locals ∧
        s'.eventChan = [] ∧ Frame s s' := by
  intro ticks
  induction ticks with
  | nil =>
    intro s hm _ _ hch _
    exact ⟨s, rfl, hm, by simp [monitorPasses], by simp [monitorPasses], hch, Frame.refl s⟩
  | cons rs ticks ih =>
    intro s hm hlive hopen hch hlen
    have hstep : step H s .tick = some { s with
        tick := s.tick + 1, mon := atSample s.pins 0 } := by
      simp [step, stepLive, monTick, hlive, hm]
    obtain ⟨s1, hrun1, p1, p2, p3, p4, p5, p6, p7, pf⟩ :=
      pass_run (H := H) s.pins rs { s with tick := s.tick + 1, mon := atSample s.pins 0 } 0
        rfl (hlen rs (List.mem_cons_self _ _)) rfl hlive hopen hch
    obtain ⟨s2, hrun2, q1, q2, q3, q4, qf⟩ :=
      ih s1 p1 (pf.crashed.trans hlive) (pf.eventClosed.trans hopen) p5
        (fun rs' h => by rw [pf.pins]; exact hlen rs' (List.mem_cons_of_mem _ h))
    simp only at p2 p3 p4 p6 p7
    have hpins : s1.pins = s.pins := pf.pins
    rw [p7, hpins, p6, p2] at hrun2 q2 q3
    refine ⟨s2, ?_, q1, ?_, ?_, q4,
      ⟨qf.pins.trans pf.pins, qf.closer.trans pf.closer, qf.crashed.trans pf.crashed,
        qf.eventClosed.trans pf.eventClosed, qf.stopClosed.trans pf.stopClosed⟩⟩
    · simp only [ticksActions, List.cons_append, run, hstep]
      exact run_trans hrun1 hrun2
    · rw [q2, p3]
      simp [monitorPasses]
    · rw [q3, p4]
      simp [monitorPasses]

/-- The events of `monitorEvents` are what the system sends: for a joystick
constructed with success, the run `monitorActions` (the baseline reads and the
ticks with the given read outcomes, every event received as soon as it is
sent) is an execution, and in its last state the events sent, and received,
are those of `monitorEvents`. -/
theorem monitor_run (H : Host σ) (w : σ) (pins : List Int) (pinNames : Int → String)
    (s0 : Sys σ) (base : List (Option Nat)) (ticks : List (List (Option Nat)))
    (hnew : (NewJoystick H w pins pinNames).2.2 = .ok s0)
    (hbase : base.length = pins.length) (hticks : ∀ rs ∈ ticks, rs.length = pins.length) :
    ∃ s, run H s0 (monitorActions pinNames pins base ticks) = some s ∧
      s.pushed = monitorEvents pinNames pins base ticks ∧
      s.delivered = monitorEvents pinNames pins base ticks := by
  obtain ⟨hfresh, hpins, hnames, htick, _⟩ := NewJoystick_ok H w pins pinNames s0 hnew
  have hlocals : s0.locals = MonState.init := by
    cases hr : (initPins H pins pins w []).2.2 with
    | error e => simp [NewJoystick, hr] at hnew
    | ok vf =>
      simp only [NewJoystick, hr, Except.ok.injEq] at hnew
      subst hnew
      rfl
  obtain ⟨s1, hrun1, b1, b2, b3, b4, b5, b6, b7, bf⟩ :=
    base_run (H := H) s0.pins base s0 0 rfl (by rw [hbase, hpins]) hfresh.mon hfresh.crashed
  obtain ⟨s2, hrun2, t1, t2, t3, t4, tf⟩ :=
    ticks_run (H := H) ticks s1 b1 (bf.crashed.trans hfresh.crashed)
      (bf.eventClosed.trans hfresh.eventClosed) (b5.trans hfresh.eventChan)
      (fun rs h => by rw [bf.pins, hpins]; exact hticks rs h)
  rw [b7, bf.pins, b6, b2, hpins, hnames, htick, hlocals] at hrun2 t2 t3
  refine ⟨s2, run_trans hrun1 hrun2, ?_, ?_⟩
  · rw [t2, b3, hfresh.pushed]
    simp [monitorEvents]
  · rw [t3, b4, hfresh.delivered]
    simp [monitorEvents]

/-! ## C3: the unwind of a failed construction -/

theorem releasedPins_append : ∀ (xs ys : List Call),
    releasedPins (xs ++ ys) = releasedPins xs ++ releasedPins ys := by
  intro xs
  induction xs with
  | nil => intro ys; rfl
  | cons c cs ih =>
    intro ys
    cases c <;> simp [releasedPins, ih]

theorem releasedPins_okCalls : ∀ (pins : List Int) (files : List Nat),
    releasedPins (okCalls pins files) = [] := by
  intro pins
  induction pins with
  | nil => intro files; rfl
  | cons p ps ih =>
    intro files
    cases files with
    | nil => rfl
    | cons f fs => simp [okCalls, releasedPins, ih]

theorem releasedPins_failCalls (e : InitError) : releasedPins (failCalls e) = [] := by
  cases e <;> rfl

theorem releasedPins_cleanup (H : Host σ) (w : σ) (pins : List Int) (vf : List (Int × Nat)) :
    releasedPins (cleanup H w pins vf).2 = pins := by
  obtain ⟨errs, hlen, h⟩ := cleanup_calls H w pins vf
  rw [h, releasedPins_append]
  have h1 : ∀ l : List (Int × Nat),
      releasedPins (l.map (fun kv => Call.closeHandle kv.2)) = [] := by
    intro l
    induction l with
    | nil => rfl
    | cons kv l ih => simpa [releasedPins] using ih
  have h2 : ∀ (ps : List Int) (es : List (Option String)), es.length = ps.length →
      releasedPins ((ps.zip es).map (fun pe => Call.release pe.1 pe.2)) = ps := by
    intro ps
    induction ps with
    | nil => intro es _; rfl
    | cons p ps ih =>
      intro es hes
      cases es with
      | nil => simp at hes
      | cons e es =>
        simp only [List.zip_cons_cons, List.map_cons, releasedPins]
        exact congrArg (List.cons p) (ih es (by simpa using hes))
  rw [h1, h2 pins errs hlen]
  rfl

/-- What the code does on a failed construction: release is invoked on every
pin of the list, once each, in list order. -/
theorem failed_construction_releases_all (H : Host σ) (w : σ) (pins : List Int)
    (pinNames : Int → String) (e : InitError)
    (h : (NewJoystick H w pins pinNames).2.2 = .error e) :
    releasedPins (NewJoystick H w pins pinNames).2.1 = pins := by
  have hshape := initPins_shape H pins pins w []
  cases hr : (initPins H pins pins w []).2.2 with
  | ok vf => simp [NewJoystick, hr] at h
  | error e' =>
    rw [hr] at hshape
    obtain ⟨k, files, w', vf', _, _, hcalls⟩ := hshape
    have hlog : (NewJoystick H w pins pinNames).2.1 =
        okCalls (pins.take k) files ++ failCalls e' ++ (cleanup H w' pins vf').2 := hcalls
    rw [hlog, releasedPins_append, releasedPins_append, releasedPins_okCalls,
      releasedPins_failCalls, releasedPins_cleanup]
    rfl

/-- C3 (evaluation of the code). With pins 17, 27, 22 and a claim of pin 27
that fails, `NewJoystick` returns the error for pin 27 after one successful
claim (pin 17) but three release calls, on pins 17, 27 and 22: pin 27, whose
claim failed, and pin 22, which was never reached, are released too; when pin
22 was exported by someone else before the call, it is no longer exported
after it.  With the single pin 17 whose claim fails there is no successful
claim and one release. -/
theorem unwind_releases_every_listed_pin :
    (NewJoystick (simHost ⟨[27], [], [], []⟩) [] [17, 27, 22] (fun _ => "")).2.1 =
      [.claim 17 none, .configure 17 none, .openHandle 17 (.ok 17),
       .claim 27 (some "EINVAL"),
       .closeHandle 17,
       .release 17 none, .release 27 (some "EINVAL"), .release 22 (some "EINVAL")] ∧
    claimedPins (NewJoystick (simHost ⟨[27], [], [], []⟩) [] [17, 27, 22] (fun _ => "")).2.1
      = [17] ∧
    releasedPins (NewJoystick (simHost ⟨[27], [], [], []⟩) [] [17, 27, 22] (fun _ => "")).2.1
      = [17, 27, 22] ∧
    (NewJoystick (simHost ⟨[27], [], [], []⟩) [22] [17, 27, 22] (fun _ => "")).1 = [] ∧
    claimedPins (NewJoystick (simHost ⟨[17], [], [], []⟩) [] [17] (fun _ => "")).2.1 = [] ∧
    releasedPins (NewJoystick (simHost ⟨[17], [], [], []⟩) [] [17] (fun _ => "")).2.1 = [17] := by
  decide

/-! ## `Close` returns without the consumer unless a send is blocked -/

/-- From inside a sampling pass `monitor` gets back to its `select` by its own
steps. -/
theorem drive_sample_alone {H : Host σ} :
    ∀ (k : Nat) (s : Sys σ) (i : Nat), s.pins.length - i = k →
      s.mon = atSample s.pins i → s.crashed = false →
      ∃ acts s', run H s acts = some s' ∧ Frame s s' ∧ s'.mon = .select ∧
        ∀ a ∈ acts, a ≠ Action.recv := by
  intro k
  induction k with
  | zero =>
    intro s i hk hm _
    rcases atSample_cases s.pins i with ⟨hi, _⟩ | ⟨_, he⟩
    · omega
    · exact ⟨[], s, rfl, Frame.refl s, hm.trans he, by simp⟩
  | succ k ih =>
    intro s i hk hm hlive
    rcases atSample_cases s.pins i with ⟨hi, he⟩ | ⟨_, he⟩
    · have hpin : s.pins[i]? = some s.pins[i] := List.getElem?_eq_getElem hi
      have hstep : step H s (.read none) = some { s with mon := atSample s.pins (i + 1) } := by
        simp [step, stepLive, monRead, hlive, hm.trans he, hpin]
      obtain ⟨acts, s', hrun, hf, hsel, hq⟩ :=
        ih { s with mon := atSample s.pins (i + 1) } (i + 1) (by simp; omega) rfl hlive
      refine ⟨.read none :: acts, s', by simp only [run, hstep]; exact hrun,
        ⟨hf.pins, hf.closer, hf.crashed, hf.eventClosed, hf.stopClosed⟩, hsel, ?_⟩
      intro a ha
      rcases List.mem_cons.mp ha with rfl | ha
      · simp
      · exact hq a ha
    · exact ⟨[], s, rfl, Frame.refl s, hm.trans he, by simp⟩

/-- From inside the baseline loop `monitor` gets to its `select` by its own
steps. -/
theorem drive_baseline_alone {H : Host σ} :
    ∀ (k : Nat) (s : Sys σ) (i : Nat), s.pins.length - i = k →
      s.mon = atBaseline s.pins i → s.crashed = false →
      ∃ acts s', run H s acts = some s' ∧ Frame s s' ∧ s'.mon = .select ∧
        ∀ a ∈ acts, a ≠ Action.recv := by
  intro k
  induction k with
  | zero =>
    intro s i hk hm _
    rcases atBaseline_cases s.pins i with ⟨hi, _⟩ | ⟨_, he⟩
    · omega
    · exact ⟨[], s, rfl, Frame.refl s, hm.trans he, by simp⟩
  | succ k ih =>
    intro s i hk hm hlive
    rcases atBaseline_cases s.pins i with ⟨hi, he⟩ | ⟨_, he⟩
    · have hpin : s.pins[i]? = some s.pins[i] := List.getElem?_eq_getElem hi
      have hstep : step H s (.read none) =
          some { s with locals := baselineStep s.pins[i] none s.locals,
                        mon := atBaseline s.pins (i + 1) } := by
        simp [step, stepLive, monRead, hlive, hm.trans he, hpin]
      obtain ⟨acts, s', hrun, hf, hsel, hq⟩ :=
        ih { s with locals := baselineStep s.pins[i] none s.locals,
                    mon := atBaseline s.pins (i + 1) } (i + 1) (by simp; omega) rfl hlive
      refine ⟨.read none :: acts, s', by simp only [run, hstep]; exact hrun,
        ⟨hf.pins, hf.closer, hf.crashed, hf.eventClosed, hf.stopClosed⟩, hsel, ?_⟩
      intro a ha
      rcases List.mem_cons.mp ha with rfl | ha
      · simp
      · exact hq a ha
    · exact ⟨[], s, rfl, Frame.refl s, hm.trans he, by simp⟩

/-- Unless it stands at a send on the full stream, `monitor` gets back to its
`select` by its own steps. -/
theorem to_select_alone {H : Host σ} (s : Sys σ) (hpc : PcOk s) (hmon : s.mon ≠ .done)
    (hlive : s.crashed = false) (hopen : s.eventClosed = false)
    (hroom : ∀ i e c, s.mon = .send i e c → s.eventChan.length < eventChanCap) :
    ∃ acts s', run H s acts = some s' ∧ Frame s s' ∧ s'.mon = .select ∧
      ∀ a ∈ acts, a ≠ Action.recv := by
  cases hm : s.mon with
  | baseline i =>
    have hi := hpc.baseline i hm
    exact drive_baseline_alone _ s i rfl (by simp [hm, atBaseline, hi]) hlive
  | select => exact ⟨[], s, rfl, Frame.refl s, hm, by simp⟩
  | sample i =>
    have hi := hpc.sample i hm
    exact drive_sample_alone _ s i rfl (by simp [hm, atSample, hi]) hlive
  | send i e c =>
    have hlt := hroom i e c hm
    have hstep : step H s .send = some { s with
        eventChan := s.eventChan ++ [e], pushed := s.pushed ++ [e],
        locals := ⟨Function.update s.locals.lastStates e.Pin c, s.locals.buffer⟩,
        mon := atSample s.pins (i + 1) } := by
      simp [step, stepLive, monSend, hlive, hm, hopen, hlt]
    obtain ⟨a2, s2, hr2, hf2, hm2, hq⟩ :=
      drive_sample_alone (H := H) _ { s with
        eventChan := s.eventChan ++ [e], pushed := s.pushed ++ [e],
        locals := ⟨Function.update s.locals.lastStates e.Pin c, s.locals.buffer⟩,
        mon := atSample s.pins (i + 1) } (i + 1) rfl rfl hlive
    refine ⟨.send :: a2, s2, by simp only [run, hstep]; exact hr2,
      ⟨hf2.pins, hf2.closer, hf2.crashed, hf2.eventClosed, hf2.stopClosed⟩, hm2, ?_⟩
    intro a ha
    rcases List.mem_cons.mp ha with rfl | ha
    · simp
    · exact hq a ha
  | done => exact absurd hm hmon

/-- Once `monitor` has returned, `Close` runs from `wg.Wait()` to its return
without blocking. -/
theorem close_finish {H : Host σ} {s0 s : Sys σ} (h0 : Fresh s0) (hr : Reachable H s0 s)
    (hc : s.closer = .wait) (hm : s.mon = .done) :
    ∃ s', run H s [.closeWait, .closeCleanup, .closeEvents] = some s' ∧
      s'.closer = .returned ∧ s'.crashed = false := by
  have hctl := reachable_ctl h0 hr
  obtain ⟨_, hopen, hl⟩ := hctl.wait hc
  have h1 : step H s .closeWait = some { s with closer := .cleanup } := by
    simp [step, stepLive, closeWait, hl, hc, hctl.wg_done hm]
  have h2 : step H { s with closer := .cleanup } .closeCleanup = some { s with
      host := (cleanup H s.host s.pins s.valueFiles).1,
      log := s.log ++ (cleanup H s.host s.pins s.valueFiles).2, closer := .closeEvents } := by
    simp [step, stepLive, closeCleanup, hl]
  have h3 : step H { s with
      host := (cleanup H s.host s.pins s.valueFiles).1,
      log := s.log ++ (cleanup H s.host s.pins s.valueFiles).2, closer := .closeEvents }
      .closeEvents = some { s with
      host := (cleanup H s.host s.pins s.valueFiles).1,
      log := s.log ++ (cleanup H s.host s.pins s.valueFiles).2 ++ [Call.closeEvents],
      eventClosed := true, closer := .returned } := by
    simp [step, stepLive, Joystick.closeEvents, hl, hopen]
  exact ⟨_, run_trans (run_single h1) (run_trans (run_single h2) (run_single h3)), rfl, hl⟩

/-- For a joystick constructed with success, from every state in which nothing
has panicked and `monitor` does not stand at a send on the full stream, the
steps of `monitor` and of `Close` alone, with no receive by the consumer, end
with `Close` returned. -/
theorem close_returns_alone {H : Host σ} {s0 s : Sys σ} (h0 : Fresh s0)
    (hr : Reachable H s0 s) (hlive : s.crashed = false)
    (hroom : ∀ i e c, s.mon = .send i e c → s.eventChan.length < eventChanCap) :
    ∃ acts s', (∀ a ∈ acts, a ≠ Action.recv) ∧ run H s acts = some s' ∧
      s'.closer = .returned ∧ s'.crashed = false := by
  have hE : ∀ s : Sys σ, Reachable H s0 s → s.closer = .closeEvents →
      ∃ acts s', (∀ a ∈ acts, a ≠ Action.recv) ∧ run H s acts = some s' ∧
        s'.closer = .returned ∧ s'.crashed = false := by
    intro s hr hc
    obtain ⟨_, _, hopen, hl⟩ := (reachable_ctl h0 hr).closeEvents hc
    have hstep : step H s .closeEvents = some { s with
        eventClosed := true, log := s.log ++ [Call.closeEvents], closer := .returned } := by
      simp [step, stepLive, Joystick.closeEvents, hl, hc, hopen]
    exact ⟨[.closeEvents], _, by simp, run_single hstep, rfl, hl⟩
  have hC : ∀ s : Sys σ, Reachable H s0 s → s.closer = .cleanup →
      ∃ acts s', (∀ a ∈ acts, a ≠ Action.recv) ∧ run H s acts = some s' ∧
        s'.closer = .returned ∧ s'.crashed = false := by
    intro s hr hc
    obtain ⟨_, _, _, hl⟩ := (reachable_ctl h0 hr).cleanup hc
    have hstep : step H s .closeCleanup = some { s with
        host := (cleanup H s.host s.pins s.valueFiles).1,
        log := s.log ++ (cleanup H s.host s.pins s.valueFiles).2, closer := .closeEvents } := by
      simp [step, stepLive, closeCleanup, hl, hc]
    obtain ⟨acts, s', hq, hrun, h1, h2⟩ := hE _ (reachable_run hr (run_single hstep)) rfl
    refine ⟨.closeCleanup :: acts, s', ?_, by simp only [run, hstep]; exact hrun, h1, h2⟩
    intro a ha
    rcases List.mem_cons.mp ha with rfl | ha
    · simp
    · exact hq a ha
  have hW : ∀ s : Sys σ, Reachable H s0 s → s.closer = .wait →
      (∀ i e c, s.mon = .send i e c → s.eventChan.length < eventChanCap) →
      ∃ acts s', (∀ a ∈ acts, a ≠ Action.recv) ∧ run H s acts = some s' ∧
        s'.closer = .returned ∧ s'.crashed = false := by
    intro s hr hc hroom
    by_cases hm : s.mon = .done
    · obtain ⟨s', hrun, h1, h2⟩ := close_finish h0 hr hc hm
      exact ⟨_, s', by simp, hrun, h1, h2⟩
    · obtain ⟨hstop, hopen, hl⟩ := (reachable_ctl h0 hr).wait hc
      obtain ⟨a1, s1, hr1, hf, hsel, hq1⟩ :=
        to_select_alone (H := H) s (reachable_pcOk h0 hr) hm hl hopen hroom
      have hstep : step H s1 .stop = some { s1 with
          mon := .done, wg := s1.wg - 1, log := s1.log ++ [Call.monitorExit] } := by
        simp [step, stepLive, monStop, hf.crashed.trans hl, hsel, hf.stopClosed.trans hstop]
      have hr2 := reachable_run (reachable_run hr hr1) (run_single hstep)
      obtain ⟨s', hrun, h1, h2⟩ := close_finish h0 hr2 (hf.closer.trans hc) rfl
      refine ⟨a1 ++ ([.stop] ++ [.closeWait, .closeCleanup, .closeEvents]), s', ?_,
        run_trans hr1 (run_trans (run_single hstep) hrun), h1, h2⟩
      intro a ha
      rcases List.mem_append.mp ha with ha | ha
      · exact hq1 a ha
      · simp only [List.singleton_append, List.mem_cons, List.mem_singleton,
          List.not_mem_nil, or_false] at ha
        rcases ha with rfl | rfl | rfl | rfl <;> simp
  cases hc : s.closer with
  | idle =>
    obtain ⟨hstop, _, _⟩ := (reachable_ctl h0 hr).idle hc
    have hstep : step H s .closeCall = some { s with stopClosed := true, closer := .wait } := by
      simp [step, stepLive, closeCall, hlive, hc, hstop]
    obtain ⟨acts, s', hq, hrun, h1, h2⟩ :=
      hW _ (reachable_run hr (run_single hstep)) rfl hroom
    refine ⟨.closeCall :: acts, s', ?_, by simp only [run, hstep]; exact hrun, h1, h2⟩
    intro a ha
    rcases List.mem_cons.mp ha with rfl | ha
    · simp
    · exact hq a ha
  | wait => exact hW s hr hc hroom
  | cleanup => exact hC s hr hc
  | closeEvents => exact hE s hr hc
  | returned => exact ⟨[], s, by simp, rfl, hc, hlive⟩

/-! ## C7: the teardown -/

theorem closeAll_host (H : Host σ) :
    ∀ (l : List (Int × Nat)) (w : σ),
      (closeAll H w l).1 = l.foldl (fun w kv => H.closeFile w kv.2) w := by
  intro l
  induction l with
  | nil => intro w; rfl
  | cons kv l ih => intro w; simp [closeAll, ih]

theorem unexportAll_host (H : Host σ) :
    ∀ (pins : List Int) (w : σ),
      (unexportAll H w pins).1 = pins.foldl (fun w pin => Prod.fst ( unexportGPIO H w pin)) w := by
  intro pins
  induction pins with
  | nil => intro w; rfl
  | cons p ps ih => intro w; simp [unexportAll, ih]

/-- The host after `cleanup`: `Close` of every handle in the order of the
`range`, then `unexportGPIO` of every pin in list order. -/
theorem cleanup_host (H : Host σ) (w : σ) (pins : List Int) (vf : List (Int × Nat)) :
    (cleanup H w pins vf).1 =
      pins.foldl (fun w pin => Prod.fst ( unexportGPIO H w pin))
        ((H.rangeMap w vf).foldl (fun w kv => H.closeFile w kv.2) w) := by
  simp [cleanup, closeAll_host, unexportAll_host]

/-- The calls recorded and the host once `Close` has returned. -/
theorem teardown_calls (H : Host σ) (w : σ) (pins : List Int) (pinNames : Int → String)
    (s0 s : Sys σ) (hnd : pins.Nodup)
    (hnew : (NewJoystick H w pins pinNames).2.2 = .ok s0)
    (hr : Reachable H s0 s) (hret : s.closer = .returned) :
    ∃ (files : List Nat) (order : List (Int × Nat)) (errs : List (Option String)),
      files.length = pins.length ∧ errs.length = pins.length ∧
      s0.log = okCalls pins files ∧
      order.Perm (pins.zip files) ∧
      s.log = s0.log ++ [Call.monitorExit] ++ order.map (fun kv => Call.closeHandle kv.2) ++
        (pins.zip errs).map (fun pe => Call.release pe.1 pe.2) ++ [Call.closeEvents] ∧
      s.host = pins.foldl (fun w pin => Prod.fst ( unexportGPIO H w pin))
        (order.foldl (fun w kv => H.closeFile w kv.2) s0.host) ∧
      s.mon = .done ∧ s.eventClosed = true := by
  obtain ⟨hfresh, hpins, _, _, files, hlen, hlog, hvf⟩ := NewJoystick_ok H w pins pinNames s0 hnew
  obtain ⟨hctl, htd⟩ := reachable_teardown hfresh hr
  obtain ⟨hlg, hhost⟩ := htd.returned hret
  obtain ⟨errs, helen, hcl⟩ := cleanup_calls H s0.host s0.pins s0.valueFiles
  rw [hpins] at helen
  refine ⟨files, H.rangeMap s0.host s0.valueFiles, errs, hlen, helen, hlog, ?_, ?_, ?_,
    (hctl.returned hret).1, (hctl.returned hret).2.2⟩
  · rw [← hvf hnd]
    exact H.rangeMap_perm _ _
  · rw [hlg, hcl, hpins]
    simp
  · rw [hhost, cleanup_host, hpins]

theorem trackStart_eq :
    (NewJoystick trackHost ([], []) [17, 27] (fun _ => "")).2.2 = .ok trackStart := rfl

theorem trackClose_isSome : (run trackHost trackStart demoClose).isSome = true := rfl

/-- C7. Teardown postcondition: for a joystick constructed with success over
distinct pins, in every state in which `Close` has returned (it returns nil)
the calls made since construction are, in this order: the return of
`monitor`; the closing of every handle opened at construction, each once, in
the order `order` in which the `range` visits the map; one release of every pin
of the list, in list order, whatever the results `errs` of these releases; and
last the closing of the event stream.  The host is then what these calls make
of it: `Close` applied to every handle in that order and then `unexportGPIO`
applied to every pin.  As for `Close` returning: once `monitor` has returned
`Close` runs from `wg.Wait()` to its return without blocking; from every state
in which nothing has panicked and `monitor` does not stand at a send on the
full stream, the steps of `monitor` and `Close` alone end with `Close`
returned; and from every state in which nothing has panicked some continuation
(the consumer receiving) does. -/
theorem close_teardown (H : Host σ) (w : σ) (pins : List Int) (pinNames : Int → String)
    (s0 s : Sys σ) (hnd : pins.Nodup)
    (hnew : (NewJoystick H w pins pinNames).2.2 = .ok s0)
    (hr : Reachable H s0 s) :
    (s.closer = .returned →
      ∃ (files : List Nat) (order : List (Int × Nat)) (errs : List (Option String)),
        files.length = pins.length ∧ errs.length = pins.length ∧
        s0.log = okCalls pins files ∧
        order.Perm (pins.zip files) ∧
        s.log = s0.log ++ [Call.monitorExit] ++ order.map (fun kv => Call.closeHandle kv.2) ++
          (pins.zip errs).map (fun pe => Call.release pe.1 pe.2) ++ [Call.closeEvents] ∧
        s.host = pins.foldl (fun w pin => Prod.fst ( unexportGPIO H w pin))
          (order.foldl (fun w kv => H.closeFile w kv.2) s0.host) ∧
        s.mon = .done ∧ s.eventClosed = true) ∧
    (s.closer = .wait → s.mon = .done →
      ∃ s', run H s [.closeWait, .closeCleanup, .closeEvents] = some s' ∧
        s'.closer = .returned ∧ s'.crashed = false) ∧
    (s.crashed = false →
      (∀ i e c, s.mon = .send i e c → s.eventChan.length < eventChanCap) →
      ∃ acts s', (∀ a ∈ acts, a ≠ Action.recv) ∧ run H s acts = some s' ∧
        s'.closer = .returned ∧ s'.crashed = false) ∧
    (s.crashed = false →
      ∃ acts s', run H s acts = some s' ∧ s'.closer = .returned ∧ s'.crashed = false) :=
  ⟨teardown_calls H w pins pinNames s0 s hnd hnew hr,
    close_finish (NewJoystick_ok H w pins pinNames s0 hnew).1 hr,
    close_returns_alone (NewJoystick_ok H w pins pinNames s0 hnew).1 hr,
    close_can_return (NewJoystick_ok H w pins pinNames s0 hnew).1 hr⟩

/-- The run `demoClose` of the joystick on pins 17 and 27 on the host that
tracks the open handles and ranges over the map in reverse: after `Close` has
returned, the calls since construction are the return of `monitor`, the closing
of the handles 27 and 17, the release of the pins 17 and 27 and the closing of
the stream; both pins were exported and both handles open before, and nothing
is exported or open after. -/
theorem close_teardown_witness :
    ∃ s : Sys (List Int × List Nat), ([17, 27] : List Int).Nodup ∧
      (NewJoystick trackHost ([], []) [17, 27] (fun _ => "")).2.2 = .ok trackStart ∧
      Reachable trackHost trackStart s ∧ s.closer = .returned ∧
      s.log = trackStart.log ++
        [.monitorExit, .closeHandle 27, .closeHandle 17, .release 17 none, .release 27 none,
         .closeEvents] ∧
      trackStart.host = ([27, 17], [27, 17]) ∧ s.host = ([], []) ∧
      ((s.closer = .returned →
        ∃ (files : List Nat) (order : List (Int × Nat)) (errs : List (Option String)),
          files.length = ([17, 27] : List Int).length ∧
          errs.length = ([17, 27] : List Int).length ∧
          trackStart.log = okCalls [17, 27] files ∧
          order.Perm (([17, 27] : List Int).zip files) ∧
          s.log = trackStart.log ++ [Call.monitorExit] ++
            order.map (fun kv => Call.closeHandle kv.2) ++
            (([17, 27] : List Int).zip errs).map (fun pe => Call.release pe.1 pe.2) ++
            [Call.closeEvents] ∧
          s.host = ([17, 27] : List Int).foldl
            (fun w pin => Prod.fst ( unexportGPIO trackHost w pin))
            (order.foldl (fun w kv => trackHost.closeFile w kv.2) trackStart.host) ∧
          s.mon = .done ∧ s.eventClosed = true) ∧
      (s.closer = .wait → s.mon = .done →
        ∃ s', run trackHost s [.closeWait, .closeCleanup, .closeEvents] = some s' ∧
          s'.closer = .returned ∧ s'.crashed = false) ∧
      (s.crashed = false →
        (∀ i e c, s.mon = .send i e c → s.eventChan.length < eventChanCap) →
        ∃ acts s', (∀ a ∈ acts, a ≠ Action.recv) ∧ run trackHost s acts = some s' ∧
          s'.closer = .returned ∧ s'.crashed = false) ∧
      (s.crashed = false →
        ∃ acts s', run trackHost s acts = some s' ∧ s'.closer = .returned ∧
          s'.crashed = false)) :=
  ⟨(run trackHost trackStart demoClose).get trackClose_isSome, by decide, trackStart_eq,
    ⟨demoClose, by simp⟩, rfl, by decide, rfl, by decide,
    close_teardown trackHost ([], []) [17, 27] (fun _ => "") trackStart _ (by decide)
      trackStart_eq ⟨demoClose, by simp⟩⟩
end Joystick
